import Mathlib

/-!
# SHA-1 (`src/src/sha1.c`): a shallow embedding and its verification

Machine integers are natural numbers with explicit reduction: `uint32_t`
arithmetic is taken modulo `2^32`, `size_t` arithmetic modulo `2^64` (a 64-bit
`size_t`), bytes are naturals below `256`.  Arrays are lists; a C function that
updates the context in place becomes a function that returns the new context.
The host byte order, which `sha1_transform` tests at run time, is the parameter
`le` (`true` on a little-endian host).  The two loops whose trip count is not a
constant take a bound on the number of iterations; the lemmas `update_loop_eq`
and `final_pad_spec` show that the bounds used are never reached.

The file has three parts: the embedding of the code, then the definitions used to
state and prove its properties (a streaming view of the context, the pattern of
the round macros, FIPS 180-1 as the specification words it, an evaluator for one
test vector, the list of calls `sha1_update` and `sha1_final` make), then the lemmas
and the claims `C1` to `C20`.
-/

namespace SHA1

/-! ## Data model -/

/-- Modelled from the spec: the context type `sha1_ctx` declared in `sha1.h`
(section 3 of the specification): `h[5]` are five 32-bit words, `count[2]` two
32-bit words (`count[0]` low, `count[1]` high), `buffer[64]` a byte buffer. -/
structure sha1_ctx where
  h0 : Nat
  h1 : Nat
  h2 : Nat
  h3 : Nat
  h4 : Nat
  count0 : Nat
  count1 : Nat
  buffer : List Nat
deriving DecidableEq

/-- Modelled from the spec: the constant `SHA1_DIGEST_SIZE` of `sha1.h`; the
specification fixes the digest size at 20 bytes. -/
def SHA1_DIGEST_SIZE : Nat := 20

/-- The array access `context->h[k]` for `k` in `0..4`. -/
def sha1_ctx.h (context : sha1_ctx) (k : Nat) : Nat :=
  match k with
  | 0 => context.h0
  | 1 => context.h1
  | 2 => context.h2
  | 3 => context.h3
  | _ => context.h4

/-- The array access `context->count[k]` for `k` in `0..1`. -/
def sha1_ctx.count (context : sha1_ctx) (k : Nat) : Nat :=
  match k with
  | 0 => context.count0
  | _ => context.count1

/-- A list of bytes (`uint8_t` values). -/
def Bytes (data : List Nat) : Prop := ∀ x ∈ data, x < 256

/-! ## Word operations (the macros of `sha1.c`) -/

/-- Addition of two `uint32_t` values. -/
def add32 (x y : Nat) : Nat := (x + y) % 2 ^ 32

/-- The macro `rol(value, bits)` on `uint32_t`. -/
def rol (value bits : Nat) : Nat :=
  ((value <<< bits) % 2 ^ 32) ||| (value >>> (32 - bits))

/-- The macro `ror(value, bits)` on `uint32_t`. -/
def ror (value bits : Nat) : Nat :=
  ((value <<< (32 - bits)) % 2 ^ 32) ||| (value >>> bits)

/-- The local variables of `sha1_transform`: the working variables and the
16-word array `block`. -/
structure Work where
  a : Nat
  b : Nat
  c : Nat
  d : Nat
  e : Nat
  block : List Nat
deriving DecidableEq

/-- The name of a working variable, as passed to the round macros. -/
inductive Var where
  | a | b | c | d | e
deriving DecidableEq

/-- Read a working variable. -/
def Work.get (s : Work) : Var → Nat
  | .a => s.a
  | .b => s.b
  | .c => s.c
  | .d => s.d
  | .e => s.e

/-- Assign a working variable. -/
def Work.set (s : Work) (v : Var) (n : Nat) : Work :=
  match v with
  | .a => { s with a := n }
  | .b => { s with b := n }
  | .c => { s with c := n }
  | .d => { s with d := n }
  | .e => { s with e := n }

/-- The macro `blk0le(i)`: byte-swap `block[i]` in place; the value of the
expression is the stored word. -/
def blk0le (block : List Nat) (i : Nat) : Nat :=
  (ror (block.getD i 0) 8 &&& 0xFF00FF00) ||| (rol (block.getD i 0) 8 &&& 0x00FF00FF)

/-- The macro `blk0be(i)`: the word `block[i]` as it is. -/
def blk0be (block : List Nat) (i : Nat) : Nat :=
  block.getD i 0

/-- The macro `blk(i)`: the next schedule word, stored at `block[i & 15]`. -/
def blk (block : List Nat) (i : Nat) : Nat :=
  rol (block.getD ((i + 13) &&& 15) 0 ^^^ block.getD ((i + 8) &&& 15) 0
        ^^^ block.getD ((i + 2) &&& 15) 0 ^^^ block.getD (i &&& 15) 0) 1

/-- The macro `Rl0(v,w,x,y,z,i)`. -/
def Rl0 (v w x y z : Var) (i : Nat) (s : Work) : Work :=
  let t := blk0le s.block i
  let s := { s with block := s.block.set i t }
  let s := s.set z (add32 (s.get z)
    (add32 (add32 (add32 ((s.get w &&& (s.get x ^^^ s.get y)) ^^^ s.get y) t) 0x5A827999)
      (rol (s.get v) 5)))
  s.set w (ror (s.get w) 2)

/-- The macro `Rb0(v,w,x,y,z,i)`. -/
def Rb0 (v w x y z : Var) (i : Nat) (s : Work) : Work :=
  let t := blk0be s.block i
  let s := s.set z (add32 (s.get z)
    (add32 (add32 (add32 ((s.get w &&& (s.get x ^^^ s.get y)) ^^^ s.get y) t) 0x5A827999)
      (rol (s.get v) 5)))
  s.set w (ror (s.get w) 2)

/-- The macro `R1(v,w,x,y,z,i)`. -/
def R1 (v w x y z : Var) (i : Nat) (s : Work) : Work :=
  let t := blk s.block i
  let s := { s with block := s.block.set (i &&& 15) t }
  let s := s.set z (add32 (s.get z)
    (add32 (add32 (add32 ((s.get w &&& (s.get x ^^^ s.get y)) ^^^ s.get y) t) 0x5A827999)
      (rol (s.get v) 5)))
  s.set w (ror (s.get w) 2)

/-- The macro `R2(v,w,x,y,z,i)`. -/
def R2 (v w x y z : Var) (i : Nat) (s : Work) : Work :=
  let t := blk s.block i
  let s := { s with block := s.block.set (i &&& 15) t }
  let s := s.set z (add32 (s.get z)
    (add32 (add32 (add32 (s.get w ^^^ s.get x ^^^ s.get y) t) 0x6ED9EBA1)
      (rol (s.get v) 5)))
  s.set w (ror (s.get w) 2)

/-- The macro `R3(v,w,x,y,z,i)`. -/
def R3 (v w x y z : Var) (i : Nat) (s : Work) : Work :=
  let t := blk s.block i
  let s := { s with block := s.block.set (i &&& 15) t }
  let s := s.set z (add32 (s.get z)
    (add32 (add32 (add32 (((s.get w ||| s.get x) &&& s.get y) ||| (s.get w &&& s.get x)) t)
      0x8F1BBCDC) (rol (s.get v) 5)))
  s.set w (ror (s.get w) 2)

/-- The macro `R4(v,w,x,y,z,i)`. -/
def R4 (v w x y z : Var) (i : Nat) (s : Work) : Work :=
  let t := blk s.block i
  let s := { s with block := s.block.set (i &&& 15) t }
  let s := s.set z (add32 (s.get z)
    (add32 (add32 (add32 (s.get w ^^^ s.get x ^^^ s.get y) t) 0xCA62C1D6)
      (rol (s.get v) 5)))
  s.set w (ror (s.get w) 2)

/-- The 32-bit word number `k` that `memcpy(block, buffer, 64)` leaves in
`block`, read in the byte order of the host. -/
def load_word (le : Bool) (buffer : List Nat) (k : Nat) : Nat :=
  if le then
    buffer.getD (4 * k) 0 + buffer.getD (4 * k + 1) 0 * 2 ^ 8
      + buffer.getD (4 * k + 2) 0 * 2 ^ 16 + buffer.getD (4 * k + 3) 0 * 2 ^ 24
  else
    buffer.getD (4 * k) 0 * 2 ^ 24 + buffer.getD (4 * k + 1) 0 * 2 ^ 16
      + buffer.getD (4 * k + 2) 0 * 2 ^ 8 + buffer.getD (4 * k + 3) 0

/-- The array `block` after `memcpy(block, buffer, 64)`. -/
def load_block (le : Bool) (buffer : List Nat) : List Nat :=
  (List.range 16).map (load_word le buffer)

/-- The sixteen `Rl0` rounds of the little-endian branch. -/
def rounds_le (s : Work) : Work :=
  s |> Rl0 .a .b .c .d .e 0 |> Rl0 .e .a .b .c .d 1 |> Rl0 .d .e .a .b .c 2 |> Rl0 .c .d .e .a .b 3
    |> Rl0 .b .c .d .e .a 4 |> Rl0 .a .b .c .d .e 5 |> Rl0 .e .a .b .c .d 6 |> Rl0 .d .e .a .b .c 7
    |> Rl0 .c .d .e .a .b 8 |> Rl0 .b .c .d .e .a 9 |> Rl0 .a .b .c .d .e 10 |> Rl0 .e .a .b .c .d 11
    |> Rl0 .d .e .a .b .c 12 |> Rl0 .c .d .e .a .b 13 |> Rl0 .b .c .d .e .a 14 |> Rl0 .a .b .c .d .e 15

/-- The sixteen `Rb0` rounds of the big-endian branch. -/
def rounds_be (s : Work) : Work :=
  s |> Rb0 .a .b .c .d .e 0 |> Rb0 .e .a .b .c .d 1 |> Rb0 .d .e .a .b .c 2 |> Rb0 .c .d .e .a .b 3
    |> Rb0 .b .c .d .e .a 4 |> Rb0 .a .b .c .d .e 5 |> Rb0 .e .a .b .c .d 6 |> Rb0 .d .e .a .b .c 7
    |> Rb0 .c .d .e .a .b 8 |> Rb0 .b .c .d .e .a 9 |> Rb0 .a .b .c .d .e 10 |> Rb0 .e .a .b .c .d 11
    |> Rb0 .d .e .a .b .c 12 |> Rb0 .c .d .e .a .b 13 |> Rb0 .b .c .d .e .a 14 |> Rb0 .a .b .c .d .e 15

/-- The rounds 16 to 79, common to both branches. -/
def rounds_rest (s : Work) : Work :=
  s |> R1 .e .a .b .c .d 16 |> R1 .d .e .a .b .c 17 |> R1 .c .d .e .a .b 18 |> R1 .b .c .d .e .a 19
    |> R2 .a .b .c .d .e 20 |> R2 .e .a .b .c .d 21 |> R2 .d .e .a .b .c 22 |> R2 .c .d .e .a .b 23
    |> R2 .b .c .d .e .a 24 |> R2 .a .b .c .d .e 25 |> R2 .e .a .b .c .d 26 |> R2 .d .e .a .b .c 27
    |> R2 .c .d .e .a .b 28 |> R2 .b .c .d .e .a 29 |> R2 .a .b .c .d .e 30 |> R2 .e .a .b .c .d 31
    |> R2 .d .e .a .b .c 32 |> R2 .c .d .e .a .b 33 |> R2 .b .c .d .e .a 34 |> R2 .a .b .c .d .e 35
    |> R2 .e .a .b .c .d 36 |> R2 .d .e .a .b .c 37 |> R2 .c .d .e .a .b 38 |> R2 .b .c .d .e .a 39
    |> R3 .a .b .c .d .e 40 |> R3 .e .a .b .c .d 41 |> R3 .d .e .a .b .c 42 |> R3 .c .d .e .a .b 43
    |> R3 .b .c .d .e .a 44 |> R3 .a .b .c .d .e 45 |> R3 .e .a .b .c .d 46 |> R3 .d .e .a .b .c 47
    |> R3 .c .d .e .a .b 48 |> R3 .b .c .d .e .a 49 |> R3 .a .b .c .d .e 50 |> R3 .e .a .b .c .d 51
    |> R3 .d .e .a .b .c 52 |> R3 .c .d .e .a .b 53 |> R3 .b .c .d .e .a 54 |> R3 .a .b .c .d .e 55
    |> R3 .e .a .b .c .d 56 |> R3 .d .e .a .b .c 57 |> R3 .c .d .e .a .b 58 |> R3 .b .c .d .e .a 59
    |> R4 .a .b .c .d .e 60 |> R4 .e .a .b .c .d 61 |> R4 .d .e .a .b .c 62 |> R4 .c .d .e .a .b 63
    |> R4 .b .c .d .e .a 64 |> R4 .a .b .c .d .e 65 |> R4 .e .a .b .c .d 66 |> R4 .d .e .a .b .c 67
    |> R4 .c .d .e .a .b 68 |> R4 .b .c .d .e .a 69 |> R4 .a .b .c .d .e 70 |> R4 .e .a .b .c .d 71
    |> R4 .d .e .a .b .c 72 |> R4 .c .d .e .a .b 73 |> R4 .b .c .d .e .a 74 |> R4 .a .b .c .d .e 75
    |> R4 .e .a .b .c .d 76 |> R4 .d .e .a .b .c 77 |> R4 .c .d .e .a .b 78 |> R4 .b .c .d .e .a 79

/-- The function `sha1_transform`: hash a single 512-bit block.  The wipe of the
local variables at the end has no effect on the context. -/
def sha1_transform (le : Bool) (context : sha1_ctx) (buffer : List Nat) : sha1_ctx :=
  let s : Work :=
    { a := context.h0, b := context.h1, c := context.h2, d := context.h3, e := context.h4,
      block := load_block le buffer }
  let s := if le then rounds_le s else rounds_be s
  let s := rounds_rest s
  { context with
    h0 := add32 context.h0 s.a
    h1 := add32 context.h1 s.b
    h2 := add32 context.h2 s.c
    h3 := add32 context.h3 s.d
    h4 := add32 context.h4 s.e }

/-- The function `sha1_init`. -/
def sha1_init (context : sha1_ctx) : sha1_ctx :=
  { context with
    h0 := 0x67452301
    h1 := 0xefcdab89
    h2 := 0x98badcfe
    h3 := 0x10325476
    h4 := 0xc3d2e1f0
    count0 := 0
    count1 := 0 }

/-- The call `memcpy(&dst[off], src, n)` on a byte array `dst`. -/
def memcpy (dst : List Nat) (off : Nat) (src : List Nat) (n : Nat) : List Nat :=
  dst.take off ++ src.take n ++ dst.drop (off + n)

/-- The loop `for (; i + 63 < len; i += 64) sha1_transform(context, data + i);`
of `sha1_update`, with `size_t` arithmetic; it returns the final `i` and the
context.  The first argument bounds the number of iterations. -/
def sha1_update_loop (le : Bool) (data : List Nat) (len : Nat) :
    Nat → Nat → sha1_ctx → Nat × sha1_ctx
  | 0, i, context => (i, context)
  | fuel + 1, i, context =>
    if (i + 63) % 2 ^ 64 < len then
      sha1_update_loop le data len fuel ((i + 64) % 2 ^ 64)
        (sha1_transform le context ((data.drop i).take 64))
    else (i, context)

/-- The counter update at the head of `sha1_update`, as a function of the two
counter words and of `len` (a `size_t`, 64 bits wide). -/
def sha1_update_count (count0 count1 len : Nat) : Nat × Nat :=
  let count0 := (count0 + (len <<< 3) % 2 ^ 32) % 2 ^ 32
  let count1 := if count0 < (len <<< 3) % 2 ^ 64 then (count1 + 1) % 2 ^ 32 else count1
  (count0, (count1 + (len >>> 29) % 2 ^ 32) % 2 ^ 32)

/-- The function `sha1_update`; `len` is the length of `data`.  The loop runs
at most `len / 64` times, so `len` bounds its iterations. -/
def sha1_update (le : Bool) (context : sha1_ctx) (data : List Nat) : sha1_ctx :=
  let len := data.length
  let j := (context.count0 >>> 3) &&& 63
  let cnt := sha1_update_count context.count0 context.count1 len
  let context := { context with count0 := cnt.1, count1 := cnt.2 }
  if (j + len) % 2 ^ 64 > 63 then
    let i := 64 - j
    let context := { context with buffer := memcpy context.buffer j data i }
    let context := sha1_transform le context context.buffer
    let r := sha1_update_loop le data len len i context
    let i := r.1
    let context := r.2
    let j := 0
    { context with buffer := memcpy context.buffer j (data.drop i) ((len + 2 ^ 64 - i) % 2 ^ 64) }
  else
    let i := 0
    { context with buffer := memcpy context.buffer j (data.drop i) ((len + 2 ^ 64 - i) % 2 ^ 64) }

/-- The loop `while ((context->count[0] & 504) != 448) sha1_update(context, "\0", 1);`
of `sha1_final`.  The first argument bounds the number of iterations. -/
def sha1_final_pad (le : Bool) : Nat → sha1_ctx → sha1_ctx
  | 0, context => context
  | fuel + 1, context =>
    if context.count0 &&& 504 ≠ 448 then
      sha1_final_pad le fuel (sha1_update le context [0])
    else context

/-- The array `finalcount` filled by the first loop of `sha1_final`. -/
def finalcount (context : sha1_ctx) : List Nat :=
  (List.range 8).map fun i =>
    (context.count (if i ≥ 4 then 0 else 1) >>> ((3 - (i &&& 3)) * 8)) &&& 255

/-- The bytes written to `digest` by the last loop of `sha1_final`. -/
def digest_of (context : sha1_ctx) : List Nat :=
  (List.range SHA1_DIGEST_SIZE).map fun i =>
    (context.h (i >>> 2) >>> ((3 - (i &&& 3)) * 8)) &&& 255

/-- The function `sha1_final`: the context it leaves and the digest it writes.
The padding loop runs at most 63 times, so 64 bounds its iterations. -/
def sha1_final (le : Bool) (context : sha1_ctx) : sha1_ctx × List Nat :=
  let fc := finalcount context
  let context := sha1_update le context [0x80]
  let context := sha1_final_pad le 64 context
  let context := sha1_update le context fc
  let digest := digest_of context
  ({ context with buffer := List.replicate 64 0, count0 := 0, count1 := 0 }, digest)

/-! ## Streaming view of the context -/

/-- The five words `h[0..4]` of a context, as a tuple. -/
abbrev HState := Nat × Nat × Nat × Nat × Nat

/-- The hash state held by a context. -/
def sha1_ctx.hs (c : sha1_ctx) : HState := (c.h0, c.h1, c.h2, c.h3, c.h4)

/-- A context with its hash state replaced. -/
def sha1_ctx.set_hs (c : sha1_ctx) (H : HState) : sha1_ctx :=
  { c with h0 := H.1, h1 := H.2.1, h2 := H.2.2.1, h3 := H.2.2.2.1, h4 := H.2.2.2.2 }

/-- The effect of `sha1_transform` on the hash state. -/
def compress (le : Bool) (H : HState) (block : List Nat) : HState :=
  (sha1_transform le ((⟨0, 0, 0, 0, 0, 0, 0, []⟩ : sha1_ctx).set_hs H) block).hs

/-- The function `sha1_transform` applied to the first `n` 64-byte blocks of a byte list,
in order. -/
def hash_blocks (le : Bool) : Nat → HState → List Nat → HState
  | 0, H, _ => H
  | n + 1, H, x => hash_blocks le n (compress le H (x.take 64)) (x.drop 64)

/-- The number of buffered bytes, `j = (count[0] >> 3) & 63`. -/
def sha1_ctx.j (c : sha1_ctx) : Nat := (c.count0 >>> 3) &&& 63

/-- The buffered bytes: the first `j` bytes of the buffer. -/
def sha1_ctx.pending (c : sha1_ctx) : List Nat := c.buffer.take c.j

/-- Streaming view of `sha1_update`: compress every complete block of the buffered bytes
followed by the new data, and keep the rest. -/
def absorb (le : Bool) (H : HState) (pend data : List Nat) : HState × List Nat :=
  (hash_blocks le ((pend ++ data).length / 64) H (pend ++ data),
    (pend ++ data).drop ((pend ++ data).length / 64 * 64))

/-- The zero bytes `sha1_final` appends after `0x80` when `j` bytes are buffered. -/
def pad_zeros (j : Nat) : Nat := (119 - j) % 64

/-- The bytes `sha1_final` feeds to `sha1_update`: `0x80`, the zero bytes, `finalcount`. -/
def final_padding (c : sha1_ctx) : List Nat :=
  [0x80] ++ List.replicate (pad_zeros c.j) 0 ++ finalcount c

/-- The context `sha1_final` leaves when the hash state it reaches is `H`. -/
def wiped (H : HState) : sha1_ctx :=
  (⟨0, 0, 0, 0, 0, 0, 0, List.replicate 64 0⟩ : sha1_ctx).set_hs H

/-- The initialization constants of `sha1_init`. -/
def IV : HState := (0x67452301, 0xefcdab89, 0x98badcfe, 0x10325476, 0xc3d2e1f0)

/-- A context whose fields are all zero. -/
def zero_ctx : sha1_ctx := ⟨0, 0, 0, 0, 0, 0, 0, List.replicate 64 0⟩

/-- The padding `sha1_final` appends to a message of `n` bytes absorbed after `sha1_init`. -/
def message_padding (n : Nat) : List Nat :=
  final_padding ⟨0, 0, 0, 0, 0, 8 * n, 0, []⟩

/-! ## The rounds of `sha1_transform` as a pattern -/

/-- The variable passed as argument number `k` (`0` for `v`, ..., `4` for `z`) to the round
macro of round `t`: the arguments rotate by one position per round. -/
def rot_var (t k : Nat) : Var :=
  match (k + 4 * t) % 5 with
  | 0 => .a
  | 1 => .b
  | 2 => .c
  | 3 => .d
  | _ => .e

/-- The macro invocation that `sha1_transform` makes for round `t`. -/
def round_stmt (le : Bool) (t : Nat) (s : Work) : Work :=
  if t < 16 then
    if le then Rl0 (rot_var t 0) (rot_var t 1) (rot_var t 2) (rot_var t 3) (rot_var t 4) t s
    else Rb0 (rot_var t 0) (rot_var t 1) (rot_var t 2) (rot_var t 3) (rot_var t 4) t s
  else if t < 20 then
    R1 (rot_var t 0) (rot_var t 1) (rot_var t 2) (rot_var t 3) (rot_var t 4) t s
  else if t < 40 then
    R2 (rot_var t 0) (rot_var t 1) (rot_var t 2) (rot_var t 3) (rot_var t 4) t s
  else if t < 60 then
    R3 (rot_var t 0) (rot_var t 1) (rot_var t 2) (rot_var t 3) (rot_var t 4) t s
  else
    R4 (rot_var t 0) (rot_var t 1) (rot_var t 2) (rot_var t 3) (rot_var t 4) t s

/-- The macro invocations of the `n` rounds from round `t` on, in order. -/
def run_rounds (le : Bool) : Nat → Nat → Work → Work
  | 0, _, s => s
  | n + 1, t, s => run_rounds le n (t + 1) (round_stmt le t s)

/-- The working variables in the order `(v, w, x, y, z)` in which round `t` receives them. -/
def view (t : Nat) (s : Work) : HState :=
  (s.get (rot_var t 0), s.get (rot_var t 1), s.get (rot_var t 2), s.get (rot_var t 3),
    s.get (rot_var t 4))

/-- The boolean function of `w, x, y` that the macro of round `t` uses. -/
def code_f (t w x y : Nat) : Nat :=
  if t < 20 then (w &&& (x ^^^ y)) ^^^ y
  else if t < 40 then w ^^^ x ^^^ y
  else if t < 60 then ((w ||| x) &&& y) ||| (w &&& x)
  else w ^^^ x ^^^ y

/-- The constant that the macro of round `t` adds. -/
def code_K (t : Nat) : Nat :=
  if t < 20 then 0x5A827999
  else if t < 40 then 0x6ED9EBA1
  else if t < 60 then 0x8F1BBCDC
  else 0xCA62C1D6

/-- The schedule word that the macro of round `t` reads from `block`. -/
def sched_word (le : Bool) (t : Nat) (block : List Nat) : Nat :=
  if t < 16 then (if le then blk0le block t else blk0be block t) else blk block t

/-- The array `block` after the macro of round `t`. -/
def sched_block (le : Bool) (t : Nat) (block : List Nat) : List Nat :=
  if t < 16 then (if le then block.set t (blk0le block t) else block)
  else block.set (t &&& 15) (blk block t)

/-- The effect of one round macro on the working variables, seen in the order
`(v, w, x, y, z)`: the result is in the order of the next round. -/
def code_step (t wt : Nat) (S : HState) : HState :=
  (add32 S.2.2.2.2
      (add32 (add32 (add32 (code_f t S.2.1 S.2.2.1 S.2.2.2.1) wt) (code_K t)) (rol S.1 5)),
    S.1, ror S.2.1 2, S.2.2.1, S.2.2.2.1)

/-- The schedule words of the `n` rounds from round `t` on. -/
def run_sched (le : Bool) : Nat → Nat → List Nat → List Nat
  | 0, _, _ => []
  | n + 1, t, block => sched_word le t block :: run_sched le n (t + 1) (sched_block le t block)

/-- The rounds from round `t` on, one for each schedule word of the list. -/
def run_steps : List Nat → Nat → HState → HState
  | [], _, S => S
  | wt :: ws, t, S => run_steps ws (t + 1) (code_step t wt S)

/-- Componentwise addition of two hash states modulo `2^32`. -/
def add5 (H S : HState) : HState :=
  (add32 H.1 S.1, add32 H.2.1 S.2.1, add32 H.2.2.1 S.2.2.1, add32 H.2.2.2.1 S.2.2.2.1,
    add32 H.2.2.2.2 S.2.2.2.2)

/-! ## FIPS 180-1, as the specification words it -/

/-- Specification: the initial hash value of SHA-1. -/
def fips_IV : HState := (0x67452301, 0xEFCDAB89, 0x98BADCFE, 0x10325476, 0xC3D2E1F0)

/-- Specification: the least number `k` of zero bytes for which a message of `n` bytes, the
byte `0x80` and `k` zero bytes have a length congruent to 56 modulo 64. -/
def fips_zero_count (n : Nat) : Nat :=
  ((List.range 64).find? fun k => (n + 1 + k) % 64 == 56).getD 0

/-- Specification: the 64-bit big-endian representation of `n`, eight bytes. -/
def fips_length_bytes (n : Nat) : List Nat :=
  [n / 2 ^ 56 % 256, n / 2 ^ 48 % 256, n / 2 ^ 40 % 256, n / 2 ^ 32 % 256,
    n / 2 ^ 24 % 256, n / 2 ^ 16 % 256, n / 2 ^ 8 % 256, n % 256]

/-- Specification: the padded message: the message, `0x80`, the zero bytes, the bit length
as a 64-bit big-endian number. -/
def fips_pad (m : List Nat) : List Nat :=
  m ++ [0x80] ++ List.replicate (fips_zero_count m.length) 0 ++ fips_length_bytes (8 * m.length)

/-- Specification: the first `n` 64-byte blocks of a byte list. -/
def fips_blocks : Nat → List Nat → List (List Nat)
  | 0, _ => []
  | n + 1, l => l.take 64 :: fips_blocks n (l.drop 64)

/-- Specification: the sixteen big-endian 32-bit words `W[0..15]` of a block. -/
def fips_words (block : List Nat) : List Nat :=
  (List.range 16).map fun k =>
    block.getD (4 * k) 0 * 2 ^ 24 + block.getD (4 * k + 1) 0 * 2 ^ 16
      + block.getD (4 * k + 2) 0 * 2 ^ 8 + block.getD (4 * k + 3) 0

/-- Specification: rotation of a 32-bit word to the left by `n` bits. -/
def rotl (n x : Nat) : Nat := ((x <<< n) % 2 ^ 32) ||| (x >>> (32 - n))

/-- Specification: the complement of a 32-bit word. -/
def not32 (x : Nat) : Nat := 2 ^ 32 - 1 - x

/-- Specification: one more word of the message schedule,
`W[t] = rotl1(W[t-3] xor W[t-8] xor W[t-14] xor W[t-16])` for `t` the number of words so
far. -/
def fips_extend (W : List Nat) : List Nat :=
  W ++ [rotl 1 (W.getD (W.length - 3) 0 ^^^ W.getD (W.length - 8) 0
          ^^^ W.getD (W.length - 14) 0 ^^^ W.getD (W.length - 16) 0)]

/-- Specification: the 80-word message schedule of a block, a separate array. -/
def fips_schedule (block : List Nat) : List Nat :=
  fips_extend^[64] (fips_words block)

/-- Specification: the round function `f_t`: Ch, Parity, Maj, Parity. -/
def fips_f (t b c d : Nat) : Nat :=
  if t < 20 then (b &&& c) ||| (not32 b &&& d)
  else if t < 40 then b ^^^ c ^^^ d
  else if t < 60 then (b &&& c) ||| (b &&& d) ||| (c &&& d)
  else b ^^^ c ^^^ d

/-- Specification: the round constant `K_t`. -/
def fips_K (t : Nat) : Nat :=
  if t < 20 then 0x5A827999
  else if t < 40 then 0x6ED9EBA1
  else if t < 60 then 0x8F1BBCDC
  else 0xCA62C1D6

/-- Specification: round `t` on `(a, b, c, d, e)`:
`T = rotl5(a) + f_t(b,c,d) + e + K_t + W[t]; e = d; d = c; c = rotl30(b); b = a; a = T`. -/
def fips_round (W : List Nat) (S : HState) (t : Nat) : HState :=
  ((rotl 5 S.1 + fips_f t S.2.1 S.2.2.1 S.2.2.2.1 + S.2.2.2.2 + fips_K t + W.getD t 0) % 2 ^ 32,
    S.1, rotl 30 S.2.1, S.2.2.1, S.2.2.2.1)

/-- Specification: the compression function: the 80 rounds on the schedule of the block,
then `h[i] := h[i] + (a,b,c,d,e)[i]` modulo `2^32`. -/
def fips_compress (H : HState) (block : List Nat) : HState :=
  let S := (List.range 80).foldl (fips_round (fips_schedule block)) H
  ((H.1 + S.1) % 2 ^ 32, (H.2.1 + S.2.1) % 2 ^ 32, (H.2.2.1 + S.2.2.1) % 2 ^ 32,
    (H.2.2.2.1 + S.2.2.2.1) % 2 ^ 32, (H.2.2.2.2 + S.2.2.2.2) % 2 ^ 32)

/-- Specification: the four bytes of a 32-bit word, most significant first. -/
def fips_word_bytes (w : Nat) : List Nat :=
  [w / 2 ^ 24 % 256, w / 2 ^ 16 % 256, w / 2 ^ 8 % 256, w % 256]

/-- Specification: the SHA-1 digest of a message: pad, split into 64-byte blocks, fold the
compression function over the blocks from the initial hash value, write the five words
big-endian. -/
def fips_sha1 (m : List Nat) : List Nat :=
  let H := (fips_blocks ((fips_pad m).length / 64) (fips_pad m)).foldl fips_compress fips_IV
  fips_word_bytes H.1 ++ fips_word_bytes H.2.1 ++ fips_word_bytes H.2.2.1
    ++ fips_word_bytes H.2.2.2.1 ++ fips_word_bytes H.2.2.2.2

/-- The hash states a context can hold: five 32-bit words. -/
def HState.Bounded (H : HState) : Prop :=
  H.1 < 2 ^ 32 ∧ H.2.1 < 2 ^ 32 ∧ H.2.2.1 < 2 ^ 32 ∧ H.2.2.2.1 < 2 ^ 32 ∧ H.2.2.2.2 < 2 ^ 32

/-- The array `block` after the `n` rounds from round `t` on. -/
def run_block (le : Bool) : Nat → Nat → List Nat → List Nat
  | 0, _, block => block
  | n + 1, t, block => run_block le n (t + 1) (sched_block le t block)

/-- The circular 16-word array `block` holds the last sixteen words of the schedule `W`. -/
def Circ (W block : List Nat) : Prop :=
  block.length = 16 ∧
    ∀ i, i < W.length → W.length ≤ i + 16 → block.getD (i % 16) 0 = W.getD i 0

/-! ## An evaluator for the block of 64 bytes `0x61`

The test vector of one million bytes `0x61` compresses the same block 15625 times.  The
definitions below compute that iteration with the schedule of the block worked out once and
every intermediate hash state evaluated before the next block starts; they are proved equal
to `compress` before they are used. -/

/-- The block of 64 bytes `0x61`. -/
def block_a : List Nat := List.replicate 64 0x61

/-- The 80 schedule words of `block_a`. -/
def sched_a : List Nat :=
  [1633771873, 1633771873, 1633771873, 1633771873, 1633771873, 1633771873, 1633771873, 1633771873,
   1633771873, 1633771873, 1633771873, 1633771873, 1633771873, 1633771873, 1633771873, 1633771873,
   0, 0, 0, 3267543746, 3267543746, 3267543746, 1195853639, 1195853639,
   2240120197, 2391707278, 2391707278, 2391707278, 2560137368, 2560137368, 1364283729, 2105376125,
   976894522, 976894522, 1650614882, 1768515945, 1313754702, 4278124286, 4126537205, 4126537205,
   2678038431, 2678038431, 50529027, 3250700737, 808464432, 808464432, 3200171710, 84215045,
   4025479151, 3840206052, 1414812756, 1936946035, 3739147998, 3739147998, 1330597711, 1667457891,
   1532713819, 3958107115, 134744072, 3014898611, 2004318071, 3351758791, 1532713819, 3958107115,
   1313754702, 1313754702, 3537031890, 2694881440, 1364283729, 1364283729, 3755991007, 1684300900,
   2560137368, 2475922323, 2475922323, 2560137368, 3722304989, 3722304989, 2762253476, 943208504]

/-- What is done with the five working variables after a round. -/
abbrev Cont := Nat → Nat → Nat → Nat → Nat → HState

/-- A round of the first kind (rounds 0 to 19) with `kw` the schedule word plus the round
constant, then `k`. -/
def fast_Q1 (kw : Nat) (k : Cont) (a b c d e : Nat) : HState :=
  k (Nat.mod (Nat.add (Nat.add (Nat.add e (Nat.xor (Nat.land b (Nat.xor c d)) d)) kw)
      (Nat.shiftRight (Nat.mul a 4294967297) 27)) 4294967296)
    a (Nat.mod (Nat.shiftRight (Nat.mul b 4294967297) 2) 4294967296) c d

/-- A round of the second and fourth kind (rounds 20 to 39 and 60 to 79), then `k`. -/
def fast_Q2 (kw : Nat) (k : Cont) (a b c d e : Nat) : HState :=
  k (Nat.mod (Nat.add (Nat.add (Nat.add e (Nat.xor (Nat.xor b c) d)) kw)
      (Nat.shiftRight (Nat.mul a 4294967297) 27)) 4294967296)
    a (Nat.mod (Nat.shiftRight (Nat.mul b 4294967297) 2) 4294967296) c d

/-- A round of the third kind (rounds 40 to 59), then `k`. -/
def fast_Q3 (kw : Nat) (k : Cont) (a b c d e : Nat) : HState :=
  k (Nat.mod (Nat.add (Nat.add (Nat.add e (Nat.lor (Nat.land (Nat.lor b c) d) (Nat.land b c))) kw)
      (Nat.shiftRight (Nat.mul a 4294967297) 27)) 4294967296)
    a (Nat.mod (Nat.shiftRight (Nat.mul b 4294967297) 2) 4294967296) c d

/-- The round of number `t`. -/
def fast_Q (t : Nat) : Nat → Cont → Cont :=
  if t < 20 then fast_Q1 else if t < 40 then fast_Q2 else if t < 60 then fast_Q3 else fast_Q2

/-- The rounds from round `t` on, one for each entry of the list, then `k`. -/
def fast_chain : List Nat → Nat → Cont → Cont
  | [], _, k => k
  | kw :: ws, t, k => fast_Q t kw (fast_chain ws (t + 1) k)

/-- The schedule words from round `t` on, each plus the constant of its round. -/
def add_K : List Nat → Nat → List Nat
  | [], _ => []
  | w :: ws, t => (w + code_K t) :: add_K ws (t + 1)

/-- The 80 rounds on the schedule of `block_a`, written out, then `k`. -/
def fast_rounds_a (k : Cont) : Cont :=
  fast_Q1 3152272122 <| fast_Q1 3152272122 <| fast_Q1 3152272122 <| fast_Q1 3152272122 <|
  fast_Q1 3152272122 <| fast_Q1 3152272122 <| fast_Q1 3152272122 <| fast_Q1 3152272122 <|
  fast_Q1 3152272122 <| fast_Q1 3152272122 <| fast_Q1 3152272122 <| fast_Q1 3152272122 <|
  fast_Q1 3152272122 <| fast_Q1 3152272122 <| fast_Q1 3152272122 <| fast_Q1 3152272122 <|
  fast_Q1 1518500249 <| fast_Q1 1518500249 <| fast_Q1 1518500249 <| fast_Q1 4786043995 <|
  fast_Q2 5127319139 <| fast_Q2 5127319139 <| fast_Q2 3055629032 <| fast_Q2 3055629032 <|
  fast_Q2 4099895590 <| fast_Q2 4251482671 <| fast_Q2 4251482671 <| fast_Q2 4251482671 <|
  fast_Q2 4419912761 <| fast_Q2 4419912761 <| fast_Q2 3224059122 <| fast_Q2 3965151518 <|
  fast_Q2 2836669915 <| fast_Q2 2836669915 <| fast_Q2 3510390275 <| fast_Q2 3628291338 <|
  fast_Q2 3173530095 <| fast_Q2 6137899679 <| fast_Q2 5986312598 <| fast_Q2 5986312598 <|
  fast_Q3 5078998139 <| fast_Q3 5078998139 <| fast_Q3 2451488735 <| fast_Q3 5651660445 <|
  fast_Q3 3209424140 <| fast_Q3 3209424140 <| fast_Q3 5601131418 <| fast_Q3 2485174753 <|
  fast_Q3 6426438859 <| fast_Q3 6241165760 <| fast_Q3 3815772464 <| fast_Q3 4337905743 <|
  fast_Q3 6140107706 <| fast_Q3 6140107706 <| fast_Q3 3731557419 <| fast_Q3 4068417599 <|
  fast_Q3 3933673527 <| fast_Q3 6359066823 <| fast_Q3 2535703780 <| fast_Q3 5415858319 <|
  fast_Q2 5399787853 <| fast_Q2 6747228573 <| fast_Q2 4928183601 <| fast_Q2 7353576897 <|
  fast_Q2 4709224484 <| fast_Q2 4709224484 <| fast_Q2 6932501672 <| fast_Q2 6090351222 <|
  fast_Q2 4759753511 <| fast_Q2 4759753511 <| fast_Q2 7151460789 <| fast_Q2 5079770682 <|
  fast_Q2 5955607150 <| fast_Q2 5871392105 <| fast_Q2 5871392105 <| fast_Q2 5955607150 <|
  fast_Q2 7117774771 <| fast_Q2 7117774771 <| fast_Q2 6157723258 <| fast_Q2 4338678286 <|
  k

/-- Evaluate `a` before going on with it. -/
def force (a : Nat) (k : Nat → HState) : HState :=
  match a with
  | 0 => k 0
  | p + 1 => k (Nat.succ p)

/-- The hash state after `n` more blocks `block_a`. -/
def fast_iter : Nat → HState → HState
  | 0, H => H
  | n + 1, (h0, h1, h2, h3, h4) =>
    fast_rounds_a
      (fun a b c d e =>
        force (Nat.mod (Nat.add h0 a) 4294967296) fun a =>
        force (Nat.mod (Nat.add h1 b) 4294967296) fun b =>
        force (Nat.mod (Nat.add h2 c) 4294967296) fun c =>
        force (Nat.mod (Nat.add h3 d) 4294967296) fun d =>
        force (Nat.mod (Nat.add h4 e) 4294967296) fun e =>
          fast_iter n (a, b, c, d, e)) h0 h1 h2 h3 h4

/-! ## The calls and copies made by `sha1_update` and `sha1_final`

The functions below are `sha1_update` and `sha1_final` again, returning in
addition the list of the `memcpy` and `sha1_transform` calls they make, in order.
The lemmas `update_log_fst` and `final_log_fst` show that the other component is
the result of `sha1_update` and `sha1_final`. -/

/-- A call made by `sha1_update`. -/
inductive Event where
  /-- The call `memcpy(&context->buffer[dst], &data[src], n)`. -/
  | copy (dst src n : Nat)
  /-- The call `sha1_transform(context, context->buffer)`. -/
  | transform_buffer
  /-- The call `sha1_transform(context, data + off)`. -/
  | transform_data (off : Nat)
deriving DecidableEq

/-- The loop of `sha1_update` as in `sha1_update_loop`, appending its calls to `log`. -/
def sha1_update_loop_log (le : Bool) (data : List Nat) (len : Nat) :
    Nat → Nat → sha1_ctx → List Event → Nat × sha1_ctx × List Event
  | 0, i, context, log => (i, context, log)
  | fuel + 1, i, context, log =>
    if (i + 63) % 2 ^ 64 < len then
      sha1_update_loop_log le data len fuel ((i + 64) % 2 ^ 64)
        (sha1_transform le context ((data.drop i).take 64)) (log ++ [Event.transform_data i])
    else (i, context, log)

/-- The function `sha1_update` with the list of its calls. -/
def sha1_update_log (le : Bool) (context : sha1_ctx) (data : List Nat) : sha1_ctx × List Event :=
  let len := data.length
  let j := (context.count0 >>> 3) &&& 63
  let cnt := sha1_update_count context.count0 context.count1 len
  let context := { context with count0 := cnt.1, count1 := cnt.2 }
  if (j + len) % 2 ^ 64 > 63 then
    let i := 64 - j
    let context := { context with buffer := memcpy context.buffer j data i }
    let log := [Event.copy j 0 i]
    let context := sha1_transform le context context.buffer
    let log := log ++ [Event.transform_buffer]
    let r := sha1_update_loop_log le data len len i context log
    let i := r.1
    let context := r.2.1
    let log := r.2.2
    let j := 0
    ({ context with buffer := memcpy context.buffer j (data.drop i) ((len + 2 ^ 64 - i) % 2 ^ 64) },
      log ++ [Event.copy j i ((len + 2 ^ 64 - i) % 2 ^ 64)])
  else
    let i := 0
    ({ context with buffer := memcpy context.buffer j (data.drop i) ((len + 2 ^ 64 - i) % 2 ^ 64) },
      [Event.copy j i ((len + 2 ^ 64 - i) % 2 ^ 64)])

/-- The padding loop of `sha1_final` as in `sha1_final_pad`, appending the calls of its
`sha1_update` calls to `log`. -/
def sha1_final_pad_log (le : Bool) : Nat → sha1_ctx → List Event → sha1_ctx × List Event
  | 0, context, log => (context, log)
  | fuel + 1, context, log =>
    if context.count0 &&& 504 ≠ 448 then
      sha1_final_pad_log le fuel (sha1_update_log le context [0]).1
        (log ++ (sha1_update_log le context [0]).2)
    else (context, log)

/-- The function `sha1_final` with the list of the calls of its `sha1_update` calls. -/
def sha1_final_log (le : Bool) (context : sha1_ctx) : (sha1_ctx × List Nat) × List Event :=
  let fc := finalcount context
  let r1 := sha1_update_log le context [0x80]
  let r2 := sha1_final_pad_log le 64 r1.1 r1.2
  let r3 := sha1_update_log le r2.1 fc
  let context := r3.1
  let digest := digest_of context
  (({ context with buffer := List.replicate 64 0, count0 := 0, count1 := 0 }, digest),
    r2.2 ++ r3.2)

/-- Whether a call is a call of `sha1_transform`. -/
def Event.is_transform : Event → Bool
  | .copy _ _ _ => false
  | .transform_buffer => true
  | .transform_data _ => true

/-- The number of `sha1_transform` calls in a list of calls. -/
def transforms (log : List Event) : Nat := log.countP Event.is_transform

/-- A call stays inside the 64-byte buffer and inside the `len` input bytes: a copy writes
`buffer[dst .. dst+n)` and reads `data[src .. src+n)`, a `sha1_transform` on the input reads
`data[off .. off+64)`, a `sha1_transform` on the buffer reads `buffer[0 .. 64)`. -/
def Event.in_bounds (len : Nat) : Event → Prop
  | .copy dst src n => dst + n ≤ 64 ∧ src + n ≤ len
  | .transform_buffer => True
  | .transform_data off => off + 64 ≤ len

/-- The calls of `sha1_update` as the claims describe them, for `j` buffered bytes and `len`
input bytes: without a full block one copy to offset `j`; otherwise the copy that fills the
buffer, the compression of the buffer, one compression for each further full 64-byte chunk of
the input, and the copy of the rest to offset `0`. -/
def update_calls (j len : Nat) : List Event :=
  if j + len < 64 then [Event.copy j 0 len]
  else
    [Event.copy j 0 (64 - j), Event.transform_buffer]
      ++ (List.range' (64 - j) ((j + len) / 64 - 1) 64).map Event.transform_data
      ++ [Event.copy 0 (64 - j + 64 * ((j + len) / 64 - 1))
            (len - (64 - j + 64 * ((j + len) / 64 - 1)))]

/-! ## Frame and block lemmas -/

theorem transform_eq (le : Bool) (c : sha1_ctx) (b : List Nat) :
    sha1_transform le c b = c.set_hs (compress le c.hs b) := rfl

@[simp] theorem set_hs_hs (c : sha1_ctx) (H : HState) : (c.set_hs H).hs = H := rfl
@[simp] theorem set_hs_self (c : sha1_ctx) : c.set_hs c.hs = c := rfl
@[simp] theorem set_hs_set_hs (c : sha1_ctx) (H K : HState) :
    (c.set_hs H).set_hs K = c.set_hs K := rfl
@[simp] theorem set_hs_buffer (c : sha1_ctx) (H : HState) : (c.set_hs H).buffer = c.buffer := rfl
@[simp] theorem set_hs_count0 (c : sha1_ctx) (H : HState) : (c.set_hs H).count0 = c.count0 := rfl
@[simp] theorem set_hs_count1 (c : sha1_ctx) (H : HState) : (c.set_hs H).count1 = c.count1 := rfl

theorem hash_blocks_add (le : Bool) (n m : Nat) (H : HState) (x : List Nat) :
    hash_blocks le (n + m) H x = hash_blocks le m (hash_blocks le n H x) (x.drop (n * 64)) := by
  induction n generalizing H x with
  | zero => simp [hash_blocks]
  | succ n ih =>
    rw [Nat.add_right_comm, hash_blocks, ih, hash_blocks, List.drop_drop]
    congr 2
    ring

theorem hash_blocks_prefix (le : Bool) (n : Nat) (H : HState) (x y : List Nat)
    (hx : n * 64 ≤ x.length) : hash_blocks le n H (x ++ y) = hash_blocks le n H x := by
  induction n generalizing H x with
  | zero => simp [hash_blocks]
  | succ n ih =>
    have h64 : 64 ≤ x.length := by omega
    rw [hash_blocks, hash_blocks, List.take_append_of_le_length h64,
      List.drop_append_of_le_length h64]
    apply ih
    rw [List.length_drop]
    omega

theorem absorb_absorb (le : Bool) (H : HState) (pend x y : List Nat) :
    absorb le (absorb le H pend x).1 (absorb le H pend x).2 y = absorb le H pend (x ++ y) := by
  simp only [absorb]
  set X := pend ++ x with hX
  have hXy : pend ++ (x ++ y) = X ++ y := by simp [hX]
  rw [hXy]
  set n := X.length / 64 with hn
  have hnX : n * 64 ≤ X.length := Nat.div_mul_le_self _ _
  have hlen : (X.drop (n * 64) ++ y).length = X.length % 64 + y.length := by
    rw [List.length_append, List.length_drop]
    have := Nat.div_add_mod X.length 64
    omega
  have hk : (X ++ y).length / 64 = n + (X.drop (n * 64) ++ y).length / 64 := by
    rw [hlen, List.length_append]
    have := Nat.div_add_mod X.length 64
    omega
  rw [hk, hash_blocks_add, hash_blocks_prefix le n H X y hnX,
    List.drop_append_of_le_length hnX, Nat.add_mul, ← List.drop_drop,
    List.drop_append_of_le_length hnX]

/-! ## The function `sha1_update` -/

theorem and_63 (x : Nat) : x &&& 63 = x % 64 := Nat.and_pow_two_sub_one_eq_mod x 6

theorem j_eq (c : sha1_ctx) : c.j = c.count0 / 8 % 64 := by
  rw [sha1_ctx.j, and_63, Nat.shiftRight_eq_div_pow]

theorem j_lt (c : sha1_ctx) : c.j < 64 := by
  rw [j_eq]; omega

theorem update_loop_eq (le : Bool) (data : List Nat) (hlen : data.length < 2 ^ 63)
    (fuel i : Nat) (c : sha1_ctx) (hi : i ≤ data.length)
    (hf : (data.length - i) / 64 ≤ fuel) :
    sha1_update_loop le data data.length fuel i c =
      (i + 64 * ((data.length - i) / 64),
        c.set_hs (hash_blocks le ((data.length - i) / 64) c.hs (data.drop i))) := by
  induction fuel generalizing i c with
  | zero =>
    have h0 : (data.length - i) / 64 = 0 := by omega
    simp [sha1_update_loop, h0, hash_blocks]
  | succ fuel ih =>
    rw [sha1_update_loop]
    have hmod : (i + 63) % 2 ^ 64 = i + 63 := Nat.mod_eq_of_lt (by omega)
    have hmod2 : (i + 64) % 2 ^ 64 = i + 64 := Nat.mod_eq_of_lt (by omega)
    rw [hmod, hmod2]
    split
    · rename_i hlt
      have hq : (data.length - i) / 64 = (data.length - (i + 64)) / 64 + 1 := by omega
      have h1 : i + 64 ≤ data.length := by omega
      have h2 : (data.length - (i + 64)) / 64 ≤ fuel := by omega
      have hd : List.drop 64 (List.drop i data) = List.drop (i + 64) data := by
        rw [List.drop_drop, Nat.add_comm]
      rw [hq, ih (i + 64) _ h1 h2, hash_blocks, transform_eq, hd]
      simp only [set_hs_hs, set_hs_set_hs]
      congr 1
      omega
    · rename_i hlt
      have h0 : (data.length - i) / 64 = 0 := by omega
      simp [h0, hash_blocks]

theorem update_loop_frame (le : Bool) (data : List Nat) (len fuel i : Nat) (c : sha1_ctx) :
    (sha1_update_loop le data len fuel i c).2.count0 = c.count0 ∧
    (sha1_update_loop le data len fuel i c).2.count1 = c.count1 ∧
    (sha1_update_loop le data len fuel i c).2.buffer = c.buffer := by
  induction fuel generalizing i c with
  | zero => exact ⟨rfl, rfl, rfl⟩
  | succ fuel ih =>
    rw [sha1_update_loop]
    split
    · obtain ⟨h1, h2, h3⟩ := ih ((i + 64) % 2 ^ 64) (sha1_transform le c ((data.drop i).take 64))
      exact ⟨h1, h2, h3⟩
    · exact ⟨rfl, rfl, rfl⟩

theorem update_count (le : Bool) (c : sha1_ctx) (data : List Nat) :
    (sha1_update le c data).count0 = (sha1_update_count c.count0 c.count1 data.length).1 ∧
    (sha1_update le c data).count1 = (sha1_update_count c.count0 c.count1 data.length).2 := by
  unfold sha1_update
  simp only
  split
  · exact ⟨(update_loop_frame le data _ _ _ _).1, (update_loop_frame le data _ _ _ _).2.1⟩
  · exact ⟨rfl, rfl⟩

theorem update_j (le : Bool) (c : sha1_ctx) (data : List Nat) :
    (sha1_update le c data).j = (c.j + data.length) % 64 := by
  rw [j_eq, j_eq, (update_count le c data).1, sha1_update_count]
  simp only [Nat.shiftLeft_eq]
  omega

theorem update_small (le : Bool) (c : sha1_ctx) (data : List Nat)
    (h : c.j + data.length ≤ 63) :
    (sha1_update le c data).buffer = memcpy c.buffer c.j data data.length ∧
    (sha1_update le c data).hs = c.hs := by
  have hj : (c.count0 >>> 3) &&& 63 = c.j := rfl
  unfold sha1_update
  simp only [hj]
  have hm : (c.j + data.length) % 2 ^ 64 = c.j + data.length := Nat.mod_eq_of_lt (by omega)
  have hm2 : (data.length + 2 ^ 64 - 0) % 2 ^ 64 = data.length := by omega
  rw [hm, if_neg (by omega), hm2]
  exact ⟨rfl, rfl⟩

theorem update_big (le : Bool) (c : sha1_ctx) (data : List Nat) (hlen : data.length < 2 ^ 63)
    (h : 64 ≤ c.j + data.length) :
    (sha1_update le c data).buffer =
      memcpy (memcpy c.buffer c.j data (64 - c.j)) 0
        (data.drop (64 - c.j + 64 * ((data.length - (64 - c.j)) / 64)))
        (data.length - (64 - c.j + 64 * ((data.length - (64 - c.j)) / 64))) ∧
    (sha1_update le c data).hs =
      hash_blocks le ((data.length - (64 - c.j)) / 64)
        (compress le c.hs (memcpy c.buffer c.j data (64 - c.j))) (data.drop (64 - c.j)) := by
  have hj : (c.count0 >>> 3) &&& 63 = c.j := rfl
  have hjlt := j_lt c
  unfold sha1_update
  simp only [hj]
  have hm : (c.j + data.length) % 2 ^ 64 = c.j + data.length := Nat.mod_eq_of_lt (by omega)
  rw [hm, if_pos (by omega), update_loop_eq le data hlen _ _ _ (by omega) (by omega)]
  simp only [transform_eq, set_hs_hs, set_hs_set_hs, set_hs_buffer]
  have hm2 : (data.length + 2 ^ 64 - (64 - c.j + 64 * ((data.length - (64 - c.j)) / 64))) % 2 ^ 64
      = data.length - (64 - c.j + 64 * ((data.length - (64 - c.j)) / 64)) := by omega
  rw [hm2]
  exact ⟨rfl, rfl⟩

theorem update_spec (le : Bool) (c : sha1_ctx) (data : List Nat) (hb : c.buffer.length = 64)
    (hlen : data.length < 2 ^ 63) :
    (sha1_update le c data).hs = (absorb le c.hs c.pending data).1 ∧
    (sha1_update le c data).pending = (absorb le c.hs c.pending data).2 ∧
    (sha1_update le c data).buffer.length = 64 := by
  have hjlt := j_lt c
  have hp' : (sha1_update le c data).pending
      = (sha1_update le c data).buffer.take ((c.j + data.length) % 64) := by
    rw [sha1_ctx.pending, update_j le c data]
  have hpl : c.pending.length = c.j := by
    rw [sha1_ctx.pending, List.length_take, hb]; omega
  rw [hp']
  simp only [absorb, List.length_append, hpl]
  by_cases h : c.j + data.length ≤ 63
  · obtain ⟨hbuf, hhs⟩ := update_small le c data h
    have hq : (c.j + data.length) / 64 = 0 := by omega
    have hr : (c.j + data.length) % 64 = c.j + data.length := by omega
    rw [hbuf, hhs, hq, hr]
    simp only [hash_blocks, Nat.zero_mul, List.drop_zero, memcpy, sha1_ctx.pending]
    refine ⟨trivial, ?_, ?_⟩
    · rw [List.take_of_length_le (le_refl data.length)]
      have : (List.take c.j c.buffer ++ data).length = c.j + data.length := by
        simp [hb]; omega
      rw [List.take_append_of_le_length (by omega), List.take_of_length_le (by omega)]
    · simp [hb]; omega
  · obtain ⟨hbuf, hhs⟩ := update_big le c data hlen (by omega)
    set q := (data.length - (64 - c.j)) / 64 with hq
    have hq' : (c.j + data.length) / 64 = q + 1 := by omega
    have hr : (c.j + data.length) % 64 = data.length - (64 - c.j + 64 * q) := by omega
    have hfirst : memcpy c.buffer c.j data (64 - c.j) = (c.pending ++ data).take 64 := by
      rw [memcpy, sha1_ctx.pending, List.take_append_eq_append_take, List.length_take, hb,
        List.drop_of_length_le (by omega), List.append_nil, List.take_take]
      congr 2 <;> omega
    have hdrop : ∀ k, (c.pending ++ data).drop (64 + k) = data.drop (64 - c.j + k) := by
      intro k
      rw [List.drop_append_eq_append_drop, List.drop_of_length_le (by omega), List.nil_append, hpl]
      congr 1; omega
    rw [hbuf, hhs, hq', hr, hfirst, hash_blocks]
    refine ⟨?_, ?_, ?_⟩
    · have := hdrop 0
      simp only [Nat.add_zero] at this
      rw [this]
    · have h2 : (q + 1) * 64 = 64 + 64 * q := by ring
      rw [h2, hdrop]
      simp only [memcpy, List.take_zero, List.nil_append, Nat.zero_add]
      rw [List.take_append_of_le_length (by simp)]
      rw [List.take_take, Nat.min_self]
      try rw [List.take_of_length_le (by simp)]
    · simp only [memcpy, List.take_zero, List.nil_append, Nat.zero_add, List.length_append,
        List.length_take, List.length_drop]
      rw [hpl]
      omega

/-! ## The function `sha1_final` -/

theorem and_504 (x : Nat) : x &&& 504 = x / 8 % 64 * 8 := by
  have h504 : (504 : Nat) = (2 ^ 6 - 1) <<< 3 := by decide
  have hr : x / 8 % 64 * 8 = ((x >>> 3) % 2 ^ 6) <<< 3 := by
    rw [Nat.shiftLeft_eq, Nat.shiftRight_eq_div_pow]; norm_num
  rw [hr, h504]
  apply Nat.eq_of_testBit_eq
  intro i
  simp only [Nat.testBit_and, Nat.testBit_shiftLeft, Nat.testBit_two_pow_sub_one,
    Nat.testBit_mod_two_pow, Nat.testBit_shiftRight]
  by_cases h3 : 3 ≤ i
  · have : 3 + (i - 3) = i := by omega
    simp [h3, this, Bool.and_comm]
  · simp [h3]

theorem pad_cond (c : sha1_ctx) : c.count0 &&& 504 ≠ 448 ↔ c.j ≠ 56 := by
  rw [and_504, j_eq]; omega

theorem pending_length (c : sha1_ctx) (hb : c.buffer.length = 64) : c.pending.length = c.j := by
  have := j_lt c
  rw [sha1_ctx.pending, List.length_take, hb]; omega

theorem absorb_nil (le : Bool) (H : HState) (pend : List Nat) (h : pend.length < 64) :
    absorb le H pend [] = (H, pend) := by
  have h0 : pend.length / 64 = 0 := by omega
  simp [absorb, h0, hash_blocks]

theorem final_pad_spec (le : Bool) (fuel : Nat) (c : sha1_ctx) (hb : c.buffer.length = 64)
    (hf : (120 - c.j) % 64 ≤ fuel) :
    (sha1_final_pad le fuel c).hs
        = (absorb le c.hs c.pending (List.replicate ((120 - c.j) % 64) 0)).1 ∧
    (sha1_final_pad le fuel c).pending
        = (absorb le c.hs c.pending (List.replicate ((120 - c.j) % 64) 0)).2 ∧
    (sha1_final_pad le fuel c).buffer.length = 64 ∧
    (sha1_final_pad le fuel c).j = 56 := by
  have hjlt := j_lt c
  induction fuel generalizing c with
  | zero =>
    have hj : c.j = 56 := by omega
    have h0 : (120 - c.j) % 64 = 0 := by omega
    rw [h0]
    simp only [sha1_final_pad, List.replicate_zero]
    rw [absorb_nil le _ _ (by rw [pending_length c hb]; omega)]
    exact ⟨rfl, rfl, hb, hj⟩
  | succ fuel ih =>
    rw [sha1_final_pad]
    by_cases hj : c.j = 56
    · have h0 : (120 - c.j) % 64 = 0 := by omega
      rw [if_neg (by rw [pad_cond]; simpa using hj), h0]
      simp only [List.replicate_zero]
      rw [absorb_nil le _ _ (by rw [pending_length c hb]; omega)]
      exact ⟨rfl, rfl, hb, hj⟩
    · rw [if_pos ((pad_cond c).2 hj)]
      obtain ⟨u1, u2, u3⟩ := update_spec le c [0] hb (by simp)
      have uj : (sha1_update le c [0]).j = (c.j + 1) % 64 := by
        simpa using update_j le c [0]
      have hk : (120 - c.j) % 64 = (120 - (sha1_update le c [0]).j) % 64 + 1 := by
        rw [uj]; omega
      have := ih (sha1_update le c [0]) u3 (by omega) (j_lt _)
      rw [u1, u2, absorb_absorb] at this
      rw [hk, List.replicate_succ]
      exact this

theorem final_spec (le : Bool) (c : sha1_ctx) (hb : c.buffer.length = 64) :
    sha1_final le c =
      (wiped (absorb le c.hs c.pending (final_padding c)).1,
        digest_of (wiped (absorb le c.hs c.pending (final_padding c)).1)) := by
  have hjlt := j_lt c
  obtain ⟨u1, u2, u3⟩ := update_spec le c [0x80] hb (by simp)
  have uj : (sha1_update le c [0x80]).j = (c.j + 1) % 64 := by
    simpa using update_j le c [0x80]
  have hk : (120 - (sha1_update le c [0x80]).j) % 64 = pad_zeros c.j := by
    rw [uj, pad_zeros]; omega
  obtain ⟨p1, p2, p3, _⟩ := final_pad_spec le 64 (sha1_update le c [0x80]) u3 (by omega)
  rw [u1, u2, absorb_absorb, hk] at p1 p2
  have hfc : (finalcount c).length < 2 ^ 63 := by simp [finalcount]
  obtain ⟨f1, _, _⟩ := update_spec le _ (finalcount c) p3 hfc
  rw [p1, p2, absorb_absorb] at f1
  have f2 : (sha1_update le (sha1_final_pad le 64 (sha1_update le c [0x80])) (finalcount c)).hs
      = (absorb le c.hs c.pending (final_padding c)).1 := f1
  rw [← f2]
  rfl

/-! ## Sequences of calls -/

theorem ctx_ext (c d : sha1_ctx) (h : c.hs = d.hs) (h0 : c.count0 = d.count0)
    (h1 : c.count1 = d.count1) (hb : c.buffer = d.buffer) : c = d := by
  cases c; cases d
  simp only [sha1_ctx.hs, Prod.mk.injEq] at h
  simp only at h0 h1 hb
  simp [h, h0, h1, hb]

theorem init_hs (c : sha1_ctx) : (sha1_init c).hs = IV := rfl
theorem init_j (c : sha1_ctx) : (sha1_init c).j = 0 := by
  simp [sha1_ctx.j, sha1_init]
theorem init_pending (c : sha1_ctx) : (sha1_init c).pending = [] := by
  simp [sha1_ctx.pending, init_j]
theorem init_buffer (c : sha1_ctx) : (sha1_init c).buffer = c.buffer := rfl

theorem update_count_lt (le : Bool) (c : sha1_ctx) (data : List Nat) :
    (sha1_update le c data).count0 < 2 ^ 32 ∧ (sha1_update le c data).count1 < 2 ^ 32 := by
  rw [(update_count le c data).1, (update_count le c data).2]
  simp only [sha1_update_count]
  constructor <;> exact Nat.mod_lt _ (by norm_num)

theorem update_count_small (count0 count1 len : Nat) (h0 : count0 + 8 * len < 2 ^ 32)
    (h1 : count1 < 2 ^ 32) :
    sha1_update_count count0 count1 len = (count0 + 8 * len, count1) := by
  simp only [sha1_update_count, Nat.shiftLeft_eq, Nat.shiftRight_eq_div_pow]
  rw [if_neg (by omega)]
  congr 1 <;> omega

theorem updates_spec (le : Bool) (chunks : List (List Nat)) (c : sha1_ctx)
    (hb : c.buffer.length = 64) (hlen : chunks.flatten.length < 2 ^ 63) :
    (chunks.foldl (sha1_update le) c).hs = (absorb le c.hs c.pending chunks.flatten).1 ∧
    (chunks.foldl (sha1_update le) c).pending = (absorb le c.hs c.pending chunks.flatten).2 ∧
    (chunks.foldl (sha1_update le) c).buffer.length = 64 := by
  induction chunks generalizing c with
  | nil =>
    have := j_lt c
    simp only [List.foldl_nil, List.flatten_nil]
    rw [absorb_nil le _ _ (by rw [pending_length c hb]; omega)]
    exact ⟨rfl, rfl, hb⟩
  | cons x xs ih =>
    simp only [List.flatten_cons, List.length_append] at hlen
    obtain ⟨u1, u2, u3⟩ := update_spec le c x hb (by omega)
    have := ih (sha1_update le c x) u3 (by omega)
    rw [u1, u2, absorb_absorb] at this
    simpa only [List.foldl_cons, List.flatten_cons] using this

theorem updates_count (le : Bool) (chunks : List (List Nat)) (c : sha1_ctx)
    (h0 : c.count0 + 8 * chunks.flatten.length < 2 ^ 32) (h1 : c.count1 < 2 ^ 32) :
    (chunks.foldl (sha1_update le) c).count0 = c.count0 + 8 * chunks.flatten.length ∧
    (chunks.foldl (sha1_update le) c).count1 = c.count1 := by
  induction chunks generalizing c with
  | nil => simp
  | cons x xs ih =>
    simp only [List.flatten_cons, List.length_append] at h0
    obtain ⟨k0, k1⟩ := update_count le c x
    rw [update_count_small _ _ _ (by omega) h1] at k0 k1
    simp only at k0 k1
    obtain ⟨i0, i1⟩ := ih (sha1_update le c x) (by rw [k0]; omega) (by rw [k1]; exact h1)
    simp only [List.foldl_cons, List.flatten_cons, List.length_append]
    rw [i0, i1, k0, k1]
    constructor
    · omega
    · trivial

theorem final_congr (le : Bool) (c d : sha1_ctx) (hc : c.buffer.length = 64)
    (hd : d.buffer.length = 64) (h : c.hs = d.hs) (hp : c.pending = d.pending)
    (h0 : c.count0 = d.count0) (h1 : c.count1 = d.count1) :
    sha1_final le c = sha1_final le d := by
  have hj : c.j = d.j := by rw [sha1_ctx.j, sha1_ctx.j, h0]
  have hf : final_padding c = final_padding d := by
    simp only [final_padding, finalcount, sha1_ctx.count, hj, h0, h1]
  rw [final_spec le c hc, final_spec le d hd, h, hp, hf]

theorem sha1_digest_eq (le : Bool) (c : sha1_ctx) (m : List Nat) (hb : c.buffer.length = 64)
    (hm : m.length < 2 ^ 29) :
    sha1_final le (sha1_update le (sha1_init c) m) =
      (wiped (absorb le IV [] (m ++ message_padding m.length)).1,
        digest_of (wiped (absorb le IV [] (m ++ message_padding m.length)).1)) := by
  have hb0 : (sha1_init c).buffer.length = 64 := hb
  obtain ⟨u1, u2, u3⟩ := update_spec le (sha1_init c) m hb0 (by omega)
  obtain ⟨k0, k1⟩ := update_count le (sha1_init c) m
  rw [show (sha1_init c).count0 = 0 from rfl, show (sha1_init c).count1 = 0 from rfl,
    update_count_small _ _ _ (by omega) (by norm_num)] at k0 k1
  simp only [Nat.zero_add] at k0 k1
  have hj : (sha1_update le (sha1_init c) m).j = (⟨0, 0, 0, 0, 0, 8 * m.length, 0, []⟩ : sha1_ctx).j := by
    rw [sha1_ctx.j, sha1_ctx.j, k0]
  have hf : final_padding (sha1_update le (sha1_init c) m) = message_padding m.length := by
    simp only [message_padding, final_padding, finalcount, sha1_ctx.count, hj, k0, k1]
  rw [final_spec le _ u3, u1, u2, absorb_absorb, hf, init_hs, init_pending]

/-! ## The rounds of `sha1_transform` -/

theorem rounds_le_eq (s : Work) : rounds_le s = run_rounds true 16 0 s := by
  simp [rounds_le, run_rounds, round_stmt, rot_var]

theorem rounds_be_eq (s : Work) : rounds_be s = run_rounds false 16 0 s := by
  simp [rounds_be, run_rounds, round_stmt, rot_var]

set_option maxRecDepth 100000 in
theorem rounds_rest_eq (le : Bool) (s : Work) : rounds_rest s = run_rounds le 64 16 s := by
  simp [rounds_rest, run_rounds, round_stmt, rot_var]

theorem rot_var_mod (t k : Nat) : rot_var t k = rot_var (t % 5) k := by
  simp only [rot_var]
  have : (k + 4 * t) % 5 = (k + 4 * (t % 5)) % 5 := by omega
  rw [this]

theorem round_stmt_view (le : Bool) (t : Nat) (s : Work) :
    view (t + 1) (round_stmt le t s) = code_step t (sched_word le t s.block) (view t s) ∧
    (round_stmt le t s).block = sched_block le t s.block := by
  have h5 : t % 5 < 5 := Nat.mod_lt _ (by norm_num)
  have e1 : ∀ k, rot_var (t + 1) k = rot_var (t % 5 + 1) k := by
    intro k
    rw [rot_var_mod (t + 1), rot_var_mod (t % 5 + 1)]
    congr 1
    omega
  have e0 : ∀ k, rot_var t k = rot_var (t % 5) k := fun k => rot_var_mod t k
  simp only [view, round_stmt, e1, e0, sched_word, sched_block, code_step, code_f, code_K]
  generalize t % 5 = r at h5
  clear e0 e1
  interval_cases r
  all_goals (
    simp only [rot_var, Nat.reduceAdd, Nat.reduceMul, Nat.reduceMod]
    split_ifs)
  all_goals first | (exfalso; omega) | exact ⟨rfl, rfl⟩

theorem run_rounds_add (le : Bool) (n m t : Nat) (s : Work) :
    run_rounds le (n + m) t s = run_rounds le m (t + n) (run_rounds le n t s) := by
  induction n generalizing t s with
  | zero => simp [run_rounds]
  | succ n ih =>
    rw [Nat.add_right_comm, run_rounds, ih, run_rounds]
    congr 1
    omega

theorem run_rounds_view (le : Bool) (n t : Nat) (s : Work) :
    view (t + n) (run_rounds le n t s) = run_steps (run_sched le n t s.block) t (view t s) := by
  induction n generalizing t s with
  | zero => rfl
  | succ n ih =>
    rw [run_rounds, run_sched, run_steps, ← (round_stmt_view le t s).1,
      ← (round_stmt_view le t s).2, ← ih]
    congr 1
    omega

theorem compress_eq (le : Bool) (H : HState) (buffer : List Nat) :
    compress le H buffer = add5 H (run_steps (run_sched le 80 0 (load_block le buffer)) 0 H) := by
  have hv := run_rounds_view le 80 0
    (⟨H.1, H.2.1, H.2.2.1, H.2.2.2.1, H.2.2.2.2, load_block le buffer⟩ : Work)
  have h0 : view 0 (⟨H.1, H.2.1, H.2.2.1, H.2.2.2.1, H.2.2.2.2, load_block le buffer⟩ : Work) = H := rfl
  rw [h0] at hv
  rw [← hv, show 80 = 16 + 64 from rfl, run_rounds_add]
  simp only [compress, sha1_transform, rounds_rest_eq le, sha1_ctx.set_hs, sha1_ctx.hs, add5]
  have hview : ∀ s : Work, view (0 + (16 + 64)) s = (s.a, s.b, s.c, s.d, s.e) := fun s => by
    simp [view, rot_var, Work.get]
  rw [hview]
  cases le
  · simp only [rounds_be_eq, Bool.false_eq_true, if_false]
  · simp only [rounds_le_eq, if_true]

/-! ## The rounds against FIPS 180-1 -/

theorem maj_eq (w x y : Nat) : ((w ||| x) &&& y) ||| (w &&& x) = (w &&& x) ||| (w &&& y) ||| (x &&& y) := by
  apply Nat.eq_of_testBit_eq
  intro i
  simp only [Nat.testBit_or, Nat.testBit_and]
  cases w.testBit i <;> cases x.testBit i <;> cases y.testBit i <;> rfl

theorem testBit_of_lt32 {x : Nat} (h : x < 2 ^ 32) (i : Nat) (hi : 32 ≤ i) : x.testBit i = false :=
  Nat.testBit_lt_two_pow (lt_of_lt_of_le h (Nat.pow_le_pow_right (by norm_num) hi))

theorem ch_eq (w x y : Nat) (hw : w < 2 ^ 32) (hy : y < 2 ^ 32) :
    (w &&& (x ^^^ y)) ^^^ y = (w &&& x) ||| (not32 w &&& y) := by
  apply Nat.eq_of_testBit_eq
  intro i
  have hn : not32 w = 2 ^ 32 - (w + 1) := by rw [not32]; omega
  rw [hn]
  simp only [Nat.testBit_or, Nat.testBit_and, Nat.testBit_xor, Nat.testBit_two_pow_sub_succ hw]
  by_cases hi : i < 32
  · simp only [hi, decide_True, Bool.true_and]
    cases w.testBit i <;> cases x.testBit i <;> cases y.testBit i <;> rfl
  · have h1 := testBit_of_lt32 hw i (by omega)
    have h2 := testBit_of_lt32 hy i (by omega)
    simp [h1, h2]

theorem code_f_eq (t b c d : Nat) (hb : b < 2 ^ 32) (hd : d < 2 ^ 32) :
    code_f t b c d = fips_f t b c d := by
  simp only [code_f, fips_f]
  split_ifs
  · exact ch_eq b c d hb hd
  · rfl
  · exact maj_eq b c d
  · rfl

theorem rotl_lt (n x : Nat) (hx : x < 2 ^ 32) : rotl n x < 2 ^ 32 := by
  rw [rotl]
  apply Nat.or_lt_two_pow (Nat.mod_lt _ (by norm_num))
  rw [Nat.shiftRight_eq_div_pow]
  exact lt_of_le_of_lt (Nat.div_le_self _ _) hx

theorem code_step_eq (W : List Nat) (t : Nat) (S : HState) (hS : S.Bounded) :
    code_step t (W.getD t 0) S = fips_round W S t ∧ (fips_round W S t).Bounded := by
  obtain ⟨a, b, c, d, e⟩ := S
  obtain ⟨ha, hb, hc, hd, he⟩ := hS
  simp only at ha hb hc hd he
  constructor
  · simp only [code_step, fips_round, code_f_eq t b c d hb hd]
    have hK : code_K t = fips_K t := rfl
    have h5 : rol a 5 = rotl 5 a := rfl
    have h30 : ror b 2 = rotl 30 b := rfl
    rw [hK, h5, h30]
    congr 1
    simp only [add32]
    omega
  · exact ⟨Nat.mod_lt _ (by norm_num), ha, rotl_lt 30 b hb, hc, hd⟩

theorem run_steps_eq (W : List Nat) (n t : Nat) (S : HState) (hS : S.Bounded)
    (hW : t + n ≤ W.length) :
    run_steps ((W.drop t).take n) t S = (List.range' t n).foldl (fips_round W) S ∧
    ((List.range' t n).foldl (fips_round W) S).Bounded := by
  induction n generalizing t S with
  | zero => exact ⟨rfl, hS⟩
  | succ n ih =>
    have hd : W.drop t = W.getD t 0 :: W.drop (t + 1) := by
      rw [List.getD_eq_getElem _ _ (by omega : t < W.length)]
      exact List.drop_eq_getElem_cons (by omega)
    rw [hd, List.take_succ_cons, run_steps, List.range'_succ, List.foldl_cons,
      (code_step_eq W t S hS).1]
    exact ih (t + 1) _ (code_step_eq W t S hS).2 (by omega)

/-! ## The message schedule against FIPS 180-1 -/

theorem getD_set_self (l : List Nat) (i a d : Nat) (h : i < l.length) :
    (l.set i a).getD i d = a := by
  simp [List.getD_eq_getElem?_getD, List.getElem?_set_self h]

theorem getD_set_ne (l : List Nat) (i j a d : Nat) (h : i ≠ j) :
    (l.set i a).getD j d = l.getD j d := by
  simp [List.getD_eq_getElem?_getD, List.getElem?_set_ne h]

theorem and_15 (x : Nat) : x &&& 15 = x % 16 := Nat.and_pow_two_sub_one_eq_mod x 4

theorem blk_circ (W block : List Nat) (hW : 16 ≤ W.length) (hC : Circ W block) :
    blk block W.length = rotl 1 (W.getD (W.length - 3) 0 ^^^ W.getD (W.length - 8) 0
          ^^^ W.getD (W.length - 14) 0 ^^^ W.getD (W.length - 16) 0) := by
  obtain ⟨_, h⟩ := hC
  have e1 : (W.length + 13) % 16 = (W.length - 3) % 16 := by omega
  have e2 : (W.length + 8) % 16 = (W.length - 8) % 16 := by omega
  have e3 : (W.length + 2) % 16 = (W.length - 14) % 16 := by omega
  have e4 : W.length % 16 = (W.length - 16) % 16 := by omega
  rw [blk, and_15, and_15, and_15, and_15, e1, e2, e3, e4,
    h (W.length - 3) (by omega) (by omega), h (W.length - 8) (by omega) (by omega),
    h (W.length - 14) (by omega) (by omega), h (W.length - 16) (by omega) (by omega)]
  rfl

theorem circ_extend (W block : List Nat) (w : Nat) (hC : Circ W block) :
    Circ (W ++ [w]) (block.set (W.length &&& 15) w) := by
  obtain ⟨hl, h⟩ := hC
  refine ⟨by rw [List.length_set, hl], fun i hi hi' => ?_⟩
  rw [List.length_append, List.length_singleton] at hi hi'
  rw [and_15]
  by_cases e : i = W.length
  · subst e
    rw [getD_set_self _ _ _ _ (by rw [hl]; omega), List.getD_append_right _ _ _ _ (le_refl _)]
    simp
  · rw [getD_set_ne _ _ _ _ _ (by omega), List.getD_append _ _ _ _ (by omega)]
    exact h i (by omega) (by omega)

theorem sched_tail (le : Bool) (n : Nat) (W block : List Nat) (hW : 16 ≤ W.length)
    (hC : Circ W block) :
    fips_extend^[n] W = W ++ run_sched le n W.length block := by
  induction n generalizing W block with
  | zero => simp [run_sched]
  | succ n ih =>
    have hw : sched_word le W.length block = blk block W.length := by
      rw [sched_word, if_neg (by omega)]
    have hb : sched_block le W.length block
        = block.set (W.length &&& 15) (blk block W.length) := by
      rw [sched_block, if_neg (by omega)]
    rw [Function.iterate_succ_apply, run_sched, hw, hb, fips_extend, ← blk_circ W block hW hC]
    have := ih (W ++ [blk block W.length]) _ (by rw [List.length_append]; omega)
      (circ_extend W block (blk block W.length) hC)
    rw [List.length_append, List.length_singleton] at this
    rw [this, List.append_assoc, List.singleton_append]

theorem and_concat (k a b c d : Nat) (hb : b < 2 ^ k) (hd : d < 2 ^ k) :
    (2 ^ k * a + b) &&& (2 ^ k * c + d) = 2 ^ k * (a &&& c) + (b &&& d) := by
  apply Nat.eq_of_testBit_eq
  intro j
  rw [Nat.testBit_and, Nat.testBit_mul_pow_two_add _ hb, Nat.testBit_mul_pow_two_add _ hd,
    Nat.testBit_mul_pow_two_add _ (Nat.and_lt_two_pow b hd)]
  split <;> simp

theorem or_concat (k a b c d : Nat) (hb : b < 2 ^ k) (hd : d < 2 ^ k) :
    (2 ^ k * a + b) ||| (2 ^ k * c + d) = 2 ^ k * (a ||| c) + (b ||| d) := by
  apply Nat.eq_of_testBit_eq
  intro j
  rw [Nat.testBit_or, Nat.testBit_mul_pow_two_add _ hb, Nat.testBit_mul_pow_two_add _ hd,
    Nat.testBit_mul_pow_two_add _ (Nat.or_lt_two_pow hb hd)]
  split <;> simp

theorem and_255 (b : Nat) (h : b < 256) : b &&& 255 = b :=
  Nat.and_pow_two_sub_one_of_lt_two_pow (n := 8) h

theorem bswap_eq (b0 b1 b2 b3 : Nat) (h0 : b0 < 256) (h1 : b1 < 256) (h2 : b2 < 256)
    (h3 : b3 < 256) :
    (ror (b0 + b1 * 2 ^ 8 + b2 * 2 ^ 16 + b3 * 2 ^ 24) 8 &&& 0xFF00FF00)
        ||| (rol (b0 + b1 * 2 ^ 8 + b2 * 2 ^ 16 + b3 * 2 ^ 24) 8 &&& 0x00FF00FF)
      = b0 * 2 ^ 24 + b1 * 2 ^ 16 + b2 * 2 ^ 8 + b3 := by
  have hror : ror (b0 + b1 * 2 ^ 8 + b2 * 2 ^ 16 + b3 * 2 ^ 24) 8
      = 2 ^ 8 * (2 ^ 8 * (2 ^ 8 * b0 + b3) + b2) + b1 := by
    have e1 : ((b0 + b1 * 2 ^ 8 + b2 * 2 ^ 16 + b3 * 2 ^ 24) <<< (32 - 8)) % 2 ^ 32
        = 2 ^ 24 * b0 := by
      rw [Nat.shiftLeft_eq]; omega
    have e2 : (b0 + b1 * 2 ^ 8 + b2 * 2 ^ 16 + b3 * 2 ^ 24) >>> 8
        = b1 + b2 * 2 ^ 8 + b3 * 2 ^ 16 := by
      rw [Nat.shiftRight_eq_div_pow]; omega
    rw [ror, e1, e2, ← Nat.mul_add_lt_is_or (by omega)]
    omega
  have hrol : rol (b0 + b1 * 2 ^ 8 + b2 * 2 ^ 16 + b3 * 2 ^ 24) 8
      = 2 ^ 8 * (2 ^ 8 * (2 ^ 8 * b2 + b1) + b0) + b3 := by
    have e1 : ((b0 + b1 * 2 ^ 8 + b2 * 2 ^ 16 + b3 * 2 ^ 24) <<< 8) % 2 ^ 32
        = 2 ^ 8 * (b0 + b1 * 2 ^ 8 + b2 * 2 ^ 16) := by
      rw [Nat.shiftLeft_eq]; omega
    have e2 : (b0 + b1 * 2 ^ 8 + b2 * 2 ^ 16 + b3 * 2 ^ 24) >>> (32 - 8) = b3 := by
      rw [Nat.shiftRight_eq_div_pow]; omega
    rw [rol, e1, e2, ← Nat.mul_add_lt_is_or (by omega)]
    omega
  have m1 : (0xFF00FF00 : Nat) = 2 ^ 8 * (2 ^ 8 * (2 ^ 8 * 255 + 0) + 255) + 0 := by norm_num
  have m2 : (0x00FF00FF : Nat) = 2 ^ 8 * (2 ^ 8 * (2 ^ 8 * 0 + 255) + 0) + 255 := by norm_num
  rw [hror, hrol, m1, m2,
    and_concat 8 _ _ _ _ (by omega) (by omega), and_concat 8 _ _ _ _ (by omega) (by omega),
    and_concat 8 _ _ _ _ (by omega) (by omega), and_concat 8 _ _ _ _ (by omega) (by omega),
    and_concat 8 _ _ _ _ (by omega) (by omega), and_concat 8 _ _ _ _ (by omega) (by omega),
    and_255 b0 h0, and_255 b1 h1, and_255 b2 h2, and_255 b3 h3]
  simp only [Nat.and_zero]
  rw [or_concat 8 _ _ _ _ (by omega) (by omega), or_concat 8 _ _ _ _ (by omega) (by omega),
    or_concat 8 _ _ _ _ (by omega) (by omega)]
  simp only [Nat.or_zero, Nat.zero_or]
  omega

theorem bytes_getD (data : List Nat) (h : Bytes data) (i : Nat) : data.getD i 0 < 256 := by
  by_cases hi : i < data.length
  · rw [List.getD_eq_getElem _ _ hi]
    exact h _ (List.getElem_mem _)
  · rw [List.getD_eq_default _ _ (by omega)]
    norm_num

theorem getD_map_range (f : Nat → Nat) (n i : Nat) (h : i < n) :
    ((List.range n).map f).getD i 0 = f i := by
  rw [List.getD_eq_getElem _ _ (by simpa using h)]
  simp

theorem list_ext_getD (l l' : List Nat) (h : l.length = l'.length)
    (hg : ∀ i, i < l.length → l.getD i 0 = l'.getD i 0) : l = l' := by
  apply List.ext_getElem h
  intro i h1 h2
  have := hg i h1
  rwa [List.getD_eq_getElem _ _ h1, List.getD_eq_getElem _ _ h2] at this

theorem run_sched_length (le : Bool) (n t : Nat) (block : List Nat) :
    (run_sched le n t block).length = n := by
  induction n generalizing t block with
  | zero => rfl
  | succ n ih => rw [run_sched, List.length_cons, ih]

theorem run_sched_add (le : Bool) (n m t : Nat) (block : List Nat) :
    run_sched le (n + m) t block
      = run_sched le n t block ++ run_sched le m (t + n) (run_block le n t block) := by
  induction n generalizing t block with
  | zero => simp [run_sched, run_block]
  | succ n ih =>
    rw [Nat.add_right_comm, run_sched, ih, run_sched, run_block, List.cons_append]
    congr 3
    omega

theorem load_word_swap (block : List Nat) (hB : Bytes block) (blk' : List Nat) (i : Nat)
    (h : blk'.getD i 0 = load_word true block i) :
    blk0le blk' i = load_word false block i := by
  rw [blk0le, h]
  simp only [load_word, if_true, Bool.false_eq_true, if_false]
  exact bswap_eq _ _ _ _ (bytes_getD _ hB _) (bytes_getD _ hB _) (bytes_getD _ hB _)
    (bytes_getD _ hB _)

theorem sched_head_le (block : List Nat) (hB : Bytes block) (n t : Nat) (b : List Nat)
    (hl : b.length = 16) (ht : t + n ≤ 16)
    (hlo : ∀ i, i < t → b.getD i 0 = load_word false block i)
    (hhi : ∀ i, t ≤ i → i < 16 → b.getD i 0 = load_word true block i) :
    run_sched true n t b = (List.range' t n).map (load_word false block) ∧
    (run_block true n t b).length = 16 ∧
    (∀ i, i < t + n → (run_block true n t b).getD i 0 = load_word false block i) := by
  induction n generalizing t b with
  | zero => exact ⟨rfl, hl, fun i hi => hlo i (by omega)⟩
  | succ n ih =>
    have hw : sched_word true t b = load_word false block t := by
      rw [sched_word, if_pos (by omega), if_pos rfl]
      exact load_word_swap block hB b t (hhi t (le_refl _) (by omega))
    have hb : sched_block true t b = b.set t (load_word false block t) := by
      rw [sched_block, if_pos (by omega), if_pos rfl,
        load_word_swap block hB b t (hhi t (le_refl _) (by omega))]
    obtain ⟨i1, i2, i3⟩ := ih (t + 1) (b.set t (load_word false block t))
      (by rw [List.length_set, hl]) (by omega)
      (fun i hi => by
        by_cases e : i = t
        · subst e; rw [getD_set_self _ _ _ _ (by omega)]
        · rw [getD_set_ne _ _ _ _ _ (fun h => e h.symm)]; exact hlo i (by omega))
      (fun i hi hi' => by
        rw [getD_set_ne _ _ _ _ _ (by omega)]; exact hhi i (by omega) hi')
    rw [run_sched, run_block, hw, hb, List.range'_succ, List.map_cons, i1]
    exact ⟨rfl, i2, fun i hi => i3 i (by omega)⟩

theorem sched_head_be (n t : Nat) (b : List Nat) (ht : t + n ≤ 16) :
    run_sched false n t b = (List.range' t n).map (fun i => b.getD i 0) ∧
    run_block false n t b = b := by
  induction n generalizing t with
  | zero => exact ⟨rfl, rfl⟩
  | succ n ih =>
    have hw : sched_word false t b = b.getD t 0 := by
      rw [sched_word, if_pos (by omega), if_neg (by simp), blk0be]
    have hb : sched_block false t b = b := by
      rw [sched_block, if_pos (by omega), if_neg (by simp)]
    rw [run_sched, run_block, hw, hb, List.range'_succ, List.map_cons, (ih (t + 1) (by omega)).1,
      (ih (t + 1) (by omega)).2]
    exact ⟨rfl, rfl⟩

theorem fips_words_eq (block : List Nat) :
    fips_words block = (List.range 16).map (load_word false block) := rfl

theorem sched_head (le : Bool) (block : List Nat) (hB : Bytes block) :
    run_sched le 16 0 (load_block le block) = fips_words block ∧
    run_block le 16 0 (load_block le block) = fips_words block := by
  rw [fips_words_eq, List.range_eq_range']
  cases le
  · obtain ⟨h1, h2⟩ := sched_head_be 16 0 (load_block false block) (by omega)
    rw [h1, h2]
    constructor
    · apply List.map_congr_left
      intro i hi
      rw [List.mem_range'_1] at hi
      exact getD_map_range _ 16 i (by omega)
    · rw [load_block, List.range_eq_range']
  · obtain ⟨h1, h2, h3⟩ := sched_head_le block hB 16 0 (load_block true block)
      (by simp [load_block]) (by omega) (fun i hi => by omega)
      (fun i _ hi => getD_map_range _ 16 i hi)
    refine ⟨h1, ?_⟩
    apply list_ext_getD _ _ (by simp [h2])
    intro i hi
    rw [h2] at hi
    rw [h3 i (by omega), ← List.range_eq_range', getD_map_range _ 16 i hi]

theorem sched_eq (le : Bool) (block : List Nat) (hB : Bytes block) :
    run_sched le 80 0 (load_block le block) = fips_schedule block := by
  obtain ⟨h1, h2⟩ := sched_head le block hB
  have hl : (fips_words block).length = 16 := by simp [fips_words]
  have hC : Circ (fips_words block) (fips_words block) := by
    refine ⟨hl, fun i hi _ => ?_⟩
    rw [Nat.mod_eq_of_lt (by omega)]
  rw [show 80 = 16 + 64 from rfl, run_sched_add, h1, h2, fips_schedule,
    sched_tail le 64 _ _ (by omega) hC, hl]

/-! ## The digest against FIPS 180-1 -/

theorem compress_bounded (le : Bool) (H : HState) (block : List Nat) :
    (compress le H block).Bounded := by
  rw [compress_eq]
  simp only [add5, add32, HState.Bounded]
  exact ⟨Nat.mod_lt _ (by norm_num), Nat.mod_lt _ (by norm_num), Nat.mod_lt _ (by norm_num),
    Nat.mod_lt _ (by norm_num), Nat.mod_lt _ (by norm_num)⟩

theorem compress_eq_fips (le : Bool) (H : HState) (block : List Nat) (hH : H.Bounded)
    (hB : Bytes block) : compress le H block = fips_compress H block := by
  have hl : (fips_schedule block).length = 80 := by
    rw [← sched_eq le block hB, run_sched_length]
  have hs := (run_steps_eq (fips_schedule block) 80 0 H hH (by omega)).1
  rw [List.drop_zero, List.take_of_length_le (by omega), ← List.range_eq_range'] at hs
  rw [compress_eq, sched_eq le block hB, hs]
  rfl

theorem bytes_take (data : List Nat) (h : Bytes data) (n : Nat) : Bytes (data.take n) :=
  fun x hx => h x (List.mem_of_mem_take hx)

theorem bytes_drop (data : List Nat) (h : Bytes data) (n : Nat) : Bytes (data.drop n) :=
  fun x hx => h x (List.mem_of_mem_drop hx)

theorem hash_blocks_eq_fips (le : Bool) (n : Nat) (H : HState) (p : List Nat) (hH : H.Bounded)
    (hp : Bytes p) : hash_blocks le n H p = (fips_blocks n p).foldl fips_compress H := by
  induction n generalizing H p with
  | zero => rfl
  | succ n ih =>
    rw [hash_blocks, fips_blocks, List.foldl_cons,
      ← compress_eq_fips le H _ hH (bytes_take p hp 64)]
    exact ih _ _ (compress_bounded le H _) (bytes_drop p hp 64)

theorem fips_zero_count_eq (n : Nat) : fips_zero_count n = pad_zeros (n % 64) := by
  have h : ∀ r, r < 64 →
      ((List.range 64).find? fun k => (r + 1 + k) % 64 == 56).getD 0 = (119 - r) % 64 := by
    decide
  have e : (fun k => (n + 1 + k) % 64 == 56) = fun k => (n % 64 + 1 + k) % 64 == 56 := by
    funext k
    congr 1
    omega
  rw [fips_zero_count, e, h _ (Nat.mod_lt _ (by norm_num)), pad_zeros]

theorem finalcount_eq (c : sha1_ctx) (h0 : c.count0 < 2 ^ 32) :
    finalcount c = fips_length_bytes (c.count1 * 2 ^ 32 + c.count0) := by
  have e : finalcount c = [(c.count1 >>> 24) &&& 255, (c.count1 >>> 16) &&& 255,
      (c.count1 >>> 8) &&& 255, (c.count1 >>> 0) &&& 255, (c.count0 >>> 24) &&& 255,
      (c.count0 >>> 16) &&& 255, (c.count0 >>> 8) &&& 255, (c.count0 >>> 0) &&& 255] := rfl
  have a : ∀ x : Nat, x &&& 255 = x % 256 := fun x => Nat.and_pow_two_sub_one_eq_mod x 8
  rw [e, fips_length_bytes]
  simp only [a, Nat.shiftRight_eq_div_pow]
  congr 1; · omega
  congr 1; · omega
  congr 1; · omega
  congr 1; · omega
  congr 1; · omega
  congr 1; · omega
  congr 1; · omega
  congr 1; omega

theorem message_padding_eq (m : List Nat) (hm : m.length < 2 ^ 29) :
    m ++ message_padding m.length = fips_pad m := by
  have hj : (⟨0, 0, 0, 0, 0, 8 * m.length, 0, []⟩ : sha1_ctx).j = m.length % 64 := by
    rw [j_eq]; simp only; omega
  have hf := finalcount_eq ⟨0, 0, 0, 0, 0, 8 * m.length, 0, []⟩ (by simp only; omega)
  simp only [Nat.zero_mul, Nat.zero_add] at hf
  rw [message_padding, final_padding, hj, hf, fips_pad, fips_zero_count_eq]
  simp only [List.append_assoc]

theorem bytes_fips_pad (m : List Nat) (hB : Bytes m) : Bytes (fips_pad m) := by
  intro x hx
  simp only [fips_pad, fips_length_bytes, List.mem_append, List.mem_singleton,
    List.mem_replicate, List.mem_cons, List.mem_nil_iff, or_false] at hx
  rcases hx with ((h | h) | h) | h
  · exact hB x h
  · omega
  · omega
  · rcases h with h | h | h | h | h | h | h | h <;> omega

theorem digest_of_wiped (H : HState) :
    digest_of (wiped H) = fips_word_bytes H.1 ++ fips_word_bytes H.2.1 ++ fips_word_bytes H.2.2.1
      ++ fips_word_bytes H.2.2.2.1 ++ fips_word_bytes H.2.2.2.2 := by
  have e : digest_of (wiped H) = [(H.1 >>> 24) &&& 255, (H.1 >>> 16) &&& 255,
      (H.1 >>> 8) &&& 255, (H.1 >>> 0) &&& 255,
      (H.2.1 >>> 24) &&& 255, (H.2.1 >>> 16) &&& 255,
      (H.2.1 >>> 8) &&& 255, (H.2.1 >>> 0) &&& 255,
      (H.2.2.1 >>> 24) &&& 255, (H.2.2.1 >>> 16) &&& 255,
      (H.2.2.1 >>> 8) &&& 255, (H.2.2.1 >>> 0) &&& 255,
      (H.2.2.2.1 >>> 24) &&& 255, (H.2.2.2.1 >>> 16) &&& 255,
      (H.2.2.2.1 >>> 8) &&& 255, (H.2.2.2.1 >>> 0) &&& 255,
      (H.2.2.2.2 >>> 24) &&& 255, (H.2.2.2.2 >>> 16) &&& 255,
      (H.2.2.2.2 >>> 8) &&& 255, (H.2.2.2.2 >>> 0) &&& 255] := rfl
  have a : ∀ x : Nat, x &&& 255 = x % 256 := fun x => Nat.and_pow_two_sub_one_eq_mod x 8
  rw [e]
  simp only [a, Nat.shiftRight_eq_div_pow, fips_word_bytes, List.cons_append, List.nil_append,
    pow_zero, Nat.div_one]

theorem iv_bounded : IV.Bounded := by
  simp only [HState.Bounded, IV]
  decide

theorem sha1_eq_fips (le : Bool) (c : sha1_ctx) (m : List Nat) (hb : c.buffer.length = 64)
    (hB : Bytes m) (hm : m.length < 2 ^ 29) :
    sha1_final le (sha1_update le (sha1_init c) m)
      = (wiped ((fips_blocks ((fips_pad m).length / 64) (fips_pad m)).foldl fips_compress fips_IV),
          fips_sha1 m) := by
  rw [sha1_digest_eq le c m hb hm, digest_of_wiped, absorb, List.nil_append,
    message_padding_eq m hm, hash_blocks_eq_fips le _ _ _ iv_bounded (bytes_fips_pad m hB)]
  rfl

/-! ## Known answers, evaluated on the embedding -/

set_option maxRecDepth 100000 in
theorem kat_abc (le : Bool) :
    digest_of (wiped (absorb le IV [] ([0x61, 0x62, 0x63] ++ message_padding 3)).1)
      = [0xA9, 0x99, 0x3E, 0x36, 0x47, 0x06, 0x81, 0x6A, 0xBA, 0x3E, 0x25, 0x71, 0x78, 0x50,
     0xC2, 0x6C, 0x9C, 0xD0, 0xD8, 0x9D] := by
  cases le <;> decide!

set_option maxRecDepth 100000 in
theorem kat_56 (le : Bool) :
    digest_of (wiped (absorb le IV []
      ([0x61, 0x62, 0x63, 0x64, 0x62, 0x63, 0x64, 0x65, 0x63, 0x64, 0x65, 0x66, 0x64, 0x65,
     0x66, 0x67, 0x65, 0x66, 0x67, 0x68, 0x66, 0x67, 0x68, 0x69, 0x67, 0x68, 0x69, 0x6A,
     0x68, 0x69, 0x6A, 0x6B, 0x69, 0x6A, 0x6B, 0x6C, 0x6A, 0x6B, 0x6C, 0x6D, 0x6B, 0x6C,
     0x6D, 0x6E, 0x6C, 0x6D, 0x6E, 0x6F, 0x6D, 0x6E, 0x6F, 0x70, 0x6E, 0x6F, 0x70, 0x71] ++ message_padding 56)).1)
      = [0x84, 0x98, 0x3E, 0x44, 0x1C, 0x3B, 0xD2, 0x6E, 0xBA, 0xAE, 0x4A, 0xA1, 0xF9, 0x51,
     0x29, 0xE5, 0xE5, 0x46, 0x70, 0xF1] := by
  cases le <;> decide!

set_option maxRecDepth 100000 in
theorem kat_empty (le : Bool) :
    digest_of (wiped (absorb le IV [] ([] ++ message_padding 0)).1)
      = [0xDA, 0x39, 0xA3, 0xEE, 0x5E, 0x6B, 0x4B, 0x0D, 0x32, 0x55, 0xBF, 0xEF, 0x95, 0x60,
     0x18, 0x90, 0xAF, 0xD8, 0x07, 0x09] := by
  cases le <;> decide!

theorem update_nil (le : Bool) (c : sha1_ctx) (h0 : c.count0 < 2 ^ 32) (h1 : c.count1 < 2 ^ 32) :
    sha1_update le c [] = c := by
  obtain ⟨hbuf, hhs⟩ := update_small le c [] (by have := j_lt c; simp only [List.length_nil]; omega)
  obtain ⟨k0, k1⟩ := update_count le c []
  rw [List.length_nil, update_count_small _ _ _ (by omega) h1] at k0 k1
  apply ctx_ext _ _ hhs k0 k1
  rw [hbuf]
  simp [memcpy]

theorem updates_nil (le : Bool) (n : Nat) (c : sha1_ctx) (h0 : c.count0 < 2 ^ 32)
    (h1 : c.count1 < 2 ^ 32) :
    (List.replicate n []).foldl (sha1_update le) c = c := by
  induction n with
  | zero => rfl
  | succ n ih => rw [List.replicate_succ, List.foldl_cons, update_nil le c h0 h1, ih]

theorem init_count_lt (c : sha1_ctx) :
    (sha1_init c).count0 < 2 ^ 32 ∧ (sha1_init c).count1 < 2 ^ 32 := by
  constructor <;> (show (0 : Nat) < _; norm_num)

theorem digest_of_getD (c : sha1_ctx) (i : Nat) (hi : i < 20) :
    (digest_of c).getD i 0 = (c.h (i / 4) >>> (8 * (3 - i % 4))) &&& 0xFF := by
  interval_cases i <;> rfl

theorem digest_of_length (c : sha1_ctx) : (digest_of c).length = 20 := by
  simp [digest_of, SHA1_DIGEST_SIZE]

/-! ## One million bytes `0x61` -/

theorem rol5_eq (a : Nat) (h : a < 2 ^ 32) :
    rol a 5 = ((a * 4294967297) >>> 27) % 2 ^ 32 := by
  have e1 : (a <<< 5) % 2 ^ 32 = 2 ^ 5 * (a % 2 ^ 27) := by
    rw [Nat.shiftLeft_eq]; omega
  have e2 : a >>> (32 - 5) = a / 2 ^ 27 := by
    rw [Nat.shiftRight_eq_div_pow]
  have e3 : a * 4294967297 / 2 ^ 27 = a / 2 ^ 27 + a * 32 := by
    rw [show a * 4294967297 = a + a * 32 * 2 ^ 27 by ring, Nat.add_mul_div_right _ _ (by norm_num)]
  rw [rol, e1, e2, ← Nat.mul_add_lt_is_or (by omega), Nat.shiftRight_eq_div_pow, e3]
  omega

theorem ror2_eq (b : Nat) (h : b < 2 ^ 32) :
    ror b 2 = ((b * 4294967297) >>> 2) % 2 ^ 32 := by
  have e1 : (b <<< (32 - 2)) % 2 ^ 32 = 2 ^ 30 * (b % 2 ^ 2) := by
    rw [Nat.shiftLeft_eq]; omega
  have e2 : b >>> 2 = b / 2 ^ 2 := by
    rw [Nat.shiftRight_eq_div_pow]
  have e3 : b * 4294967297 / 2 ^ 2 = b / 2 ^ 2 + b * 2 ^ 30 := by
    rw [show b * 4294967297 = b + b * 2 ^ 30 * 2 ^ 2 by ring,
      Nat.add_mul_div_right _ _ (by norm_num)]
  rw [ror, e1, e2, ← Nat.mul_add_lt_is_or (by omega), Nat.shiftRight_eq_div_pow, e3]
  omega

theorem fast_Q_eq (t w : Nat) (k : Cont) (a b c d e : Nat) (ha : a < 2 ^ 32)
    (hb : b < 2 ^ 32) :
    fast_Q t (w + code_K t) k a b c d e
      = k (code_step t w (a, b, c, d, e)).1 a (ror b 2) c d := by
  have h5 := rol5_eq a ha
  have h2 := ror2_eq b hb
  have hT : ∀ f : Nat,
      Nat.mod (Nat.add (Nat.add (Nat.add e f) (w + code_K t))
        (Nat.shiftRight (Nat.mul a 4294967297) 27)) 4294967296
      = add32 e (add32 (add32 (add32 f w) (code_K t)) (rol a 5)) := by
    intro f
    rw [h5]
    show (e + f + (w + code_K t) + (a * 4294967297) >>> 27) % 4294967296 = _
    simp only [add32]
    omega
  have hR : Nat.mod (Nat.shiftRight (Nat.mul b 4294967297) 2) 4294967296 = ror b 2 := by
    rw [h2]; rfl
  simp only [fast_Q, code_step, code_f]
  split_ifs <;> simp only [fast_Q1, fast_Q2, fast_Q3, hT, hR] <;> rfl

theorem code_step_bounded (t w : Nat) (S : HState) (hS : S.Bounded) :
    (code_step t w S).Bounded := by
  obtain ⟨a, b, c, d, e⟩ := S
  obtain ⟨ha, hb, hc, hd, he⟩ := hS
  simp only at ha hb hc hd he
  have h30 : ror b 2 < 2 ^ 32 := rotl_lt 30 b hb
  exact ⟨Nat.mod_lt _ (by norm_num), ha, h30, hc, hd⟩

theorem fast_chain_eq (ws : List Nat) (t : Nat) (k : Cont) (S : HState) (hS : S.Bounded) :
    fast_chain (add_K ws t) t k S.1 S.2.1 S.2.2.1 S.2.2.2.1 S.2.2.2.2
      = k (run_steps ws t S).1 (run_steps ws t S).2.1 (run_steps ws t S).2.2.1
          (run_steps ws t S).2.2.2.1 (run_steps ws t S).2.2.2.2 := by
  induction ws generalizing t S with
  | nil => rfl
  | cons w ws ih =>
    obtain ⟨a, b, c, d, e⟩ := S
    rw [add_K, fast_chain, run_steps]
    simp only
    rw [fast_Q_eq t w _ a b c d e hS.1 hS.2.1]
    exact ih (t + 1) (code_step t w (a, b, c, d, e)) (code_step_bounded t w _ hS)

set_option maxRecDepth 100000 in
theorem fast_rounds_a_eq (k : Cont) : fast_rounds_a k = fast_chain (add_K sched_a 0) 0 k := by
  simp only [fast_rounds_a, sched_a, add_K, fast_chain, fast_Q, code_K, Nat.reduceAdd,
    Nat.reduceLT, if_true, if_false]

set_option maxRecDepth 100000 in
theorem sched_a_eq (le : Bool) : run_sched le 80 0 (load_block le block_a) = sched_a := by
  cases le <;> decide!

theorem force_eq (a : Nat) (k : Nat → HState) : force a k = k a := by
  cases a <;> rfl

theorem fast_iter_succ (n : Nat) (H : HState) (hH : H.Bounded) (le : Bool) :
    fast_iter (n + 1) H = fast_iter n (compress le H block_a) := by
  obtain ⟨h0, h1, h2, h3, h4⟩ := H
  rw [fast_iter, fast_rounds_a_eq, fast_chain_eq sched_a 0 _ (h0, h1, h2, h3, h4) hH]
  simp only [force_eq]
  rw [compress_eq, sched_a_eq]
  rfl

theorem fast_iter_eq (le : Bool) (n : Nat) (H : HState) (hH : H.Bounded) :
    fast_iter n H = (fun K => compress le K block_a)^[n] H := by
  induction n generalizing H with
  | zero => rfl
  | succ n ih =>
    rw [fast_iter_succ n H hH le, Function.iterate_succ_apply,
      ih _ (compress_bounded le H block_a)]

theorem hash_blocks_replicate (le : Bool) (n : Nat) (H : HState) (x : Nat) :
    hash_blocks le n H (List.replicate (n * 64) x)
      = (fun K => compress le K (List.replicate 64 x))^[n] H := by
  induction n generalizing H with
  | zero => rfl
  | succ n ih =>
    have e1 : (List.replicate ((n + 1) * 64) x).take 64 = List.replicate 64 x := by
      rw [List.take_replicate]; congr 1; omega
    have e2 : (List.replicate ((n + 1) * 64) x).drop 64 = List.replicate (n * 64) x := by
      rw [List.drop_replicate]; congr 1; omega
    rw [hash_blocks, e1, e2, ih, Function.iterate_succ_apply]



set_option maxRecDepth 1000000 in
theorem fast_iter_part1 :
    fast_iter 3125 IV
      = (1543656767, 2251408121, 4247618056, 4117055894, 3977180739) := by
  decide!

set_option maxRecDepth 1000000 in
theorem fast_iter_part2 :
    fast_iter 3125 (1543656767, 2251408121, 4247618056, 4117055894, 3977180739)
      = (1882013764, 2143893764, 2979350650, 3850471338, 1318387388) := by
  decide!

set_option maxRecDepth 1000000 in
theorem fast_iter_part3 :
    fast_iter 3125 (1882013764, 2143893764, 2979350650, 3850471338, 1318387388)
      = (3279703266, 3670769863, 3408221997, 3730904313, 1864669844) := by
  decide!

set_option maxRecDepth 1000000 in
theorem fast_iter_part4 :
    fast_iter 3125 (3279703266, 3670769863, 3408221997, 3730904313, 1864669844)
      = (2560686508, 2864810195, 2705390723, 2896164012, 2354954463) := by
  decide!

set_option maxRecDepth 1000000 in
theorem fast_iter_part5 :
    fast_iter 3125 (2560686508, 2864810195, 2705390723, 2896164012, 2354954463)
      = (2689137366, 452846373, 4260416976, 1315111631, 1780696285) := by
  decide!

set_option maxRecDepth 100000 in
theorem last_block_a (le : Bool) :
    compress le (2689137366, 452846373, 4260416976, 1315111631, 1780696285) (message_padding 1000000)
      = (883595068, 3569670820, 4129221419, 3685558065, 1697907055) := by
  cases le <;> decide!

theorem iterate_block_a (le : Bool) :
    (fun K => compress le K block_a)^[15625] IV = (2689137366, 452846373, 4260416976, 1315111631, 1780696285) := by
  have h1 : (fun K => compress le K block_a)^[3125] IV
      = (1543656767, 2251408121, 4247618056, 4117055894, 3977180739) := by
    rw [← fast_iter_eq le 3125 _ iv_bounded]
    exact fast_iter_part1
  have h2 : (fun K => compress le K block_a)^[3125] (1543656767, 2251408121, 4247618056, 4117055894, 3977180739)
      = (1882013764, 2143893764, 2979350650, 3850471338, 1318387388) := by
    rw [← fast_iter_eq le 3125 _ ⟨by decide, by decide, by decide, by decide, by decide⟩]
    exact fast_iter_part2
  have h3 : (fun K => compress le K block_a)^[3125] (1882013764, 2143893764, 2979350650, 3850471338, 1318387388)
      = (3279703266, 3670769863, 3408221997, 3730904313, 1864669844) := by
    rw [← fast_iter_eq le 3125 _ ⟨by decide, by decide, by decide, by decide, by decide⟩]
    exact fast_iter_part3
  have h4 : (fun K => compress le K block_a)^[3125] (3279703266, 3670769863, 3408221997, 3730904313, 1864669844)
      = (2560686508, 2864810195, 2705390723, 2896164012, 2354954463) := by
    rw [← fast_iter_eq le 3125 _ ⟨by decide, by decide, by decide, by decide, by decide⟩]
    exact fast_iter_part4
  have h5 : (fun K => compress le K block_a)^[3125] (2560686508, 2864810195, 2705390723, 2896164012, 2354954463)
      = (2689137366, 452846373, 4260416976, 1315111631, 1780696285) := by
    rw [← fast_iter_eq le 3125 _ ⟨by decide, by decide, by decide, by decide, by decide⟩]
    exact fast_iter_part5
  have e : 15625 = 3125 + (3125 + (3125 + (3125 + 3125))) := rfl
  rw [e, Function.iterate_add_apply, Function.iterate_add_apply, Function.iterate_add_apply,
    Function.iterate_add_apply, h1, h2, h3, h4, h5]

theorem message_padding_million : (message_padding 1000000).length = 64 := by
  decide

theorem million_a_state (le : Bool) :
    (absorb le IV [] (List.replicate 1000000 0x61 ++ message_padding 1000000)).1
      = (883595068, 3569670820, 4129221419, 3685558065, 1697907055) := by
  have hl : ([] ++ (List.replicate 1000000 0x61 ++ message_padding 1000000)).length / 64
      = 15625 + 1 := by
    rw [List.nil_append, List.length_append, List.length_replicate, message_padding_million]
  have hr : List.replicate 1000000 0x61 = List.replicate (15625 * 64) 0x61 := rfl
  rw [absorb, hl, List.nil_append, hash_blocks_add, hr,
    hash_blocks_prefix le 15625 _ _ _ (by rw [List.length_replicate]),
    hash_blocks_replicate, List.drop_left' (by rw [List.length_replicate])]
  have hb : List.replicate 64 0x61 = block_a := rfl
  rw [hb, iterate_block_a, hash_blocks, hash_blocks,
    List.take_of_length_le (by rw [message_padding_million])]
  exact last_block_a le

/-! ## The calls of `sha1_update` -/

theorem update_loop_log_fst (le : Bool) (data : List Nat) (len fuel i : Nat) (c : sha1_ctx)
    (log : List Event) :
    (sha1_update_loop_log le data len fuel i c log).1 = (sha1_update_loop le data len fuel i c).1 ∧
    (sha1_update_loop_log le data len fuel i c log).2.1
      = (sha1_update_loop le data len fuel i c).2 := by
  induction fuel generalizing i c log with
  | zero => exact ⟨rfl, rfl⟩
  | succ fuel ih =>
    rw [sha1_update_loop_log, sha1_update_loop]
    split
    · exact ih _ _ _
    · exact ⟨rfl, rfl⟩

theorem update_log_fst (le : Bool) (c : sha1_ctx) (data : List Nat) :
    (sha1_update_log le c data).1 = sha1_update le c data := by
  unfold sha1_update_log sha1_update
  simp only
  split
  · simp only [(update_loop_log_fst le data _ _ _ _ _).1, (update_loop_log_fst le data _ _ _ _ _).2]
  · rfl

theorem update_loop_log_eq (le : Bool) (data : List Nat) (hlen : data.length < 2 ^ 63)
    (fuel i : Nat) (c : sha1_ctx) (log : List Event) (hi : i ≤ data.length)
    (hf : (data.length - i) / 64 ≤ fuel) :
    (sha1_update_loop_log le data data.length fuel i c log).2.2
      = log ++ (List.range' i ((data.length - i) / 64) 64).map Event.transform_data := by
  induction fuel generalizing i c log with
  | zero =>
    have h0 : (data.length - i) / 64 = 0 := by omega
    simp [sha1_update_loop_log, h0]
  | succ fuel ih =>
    rw [sha1_update_loop_log]
    have hmod : (i + 63) % 2 ^ 64 = i + 63 := Nat.mod_eq_of_lt (by omega)
    have hmod2 : (i + 64) % 2 ^ 64 = i + 64 := Nat.mod_eq_of_lt (by omega)
    rw [hmod, hmod2]
    split
    · rename_i hlt
      have hq : (data.length - i) / 64 = (data.length - (i + 64)) / 64 + 1 := by omega
      rw [hq, ih (i + 64) _ _ (by omega) (by omega), List.range'_succ, List.map_cons,
        List.append_assoc, List.singleton_append]
    · rename_i hlt
      have h0 : (data.length - i) / 64 = 0 := by omega
      simp [h0]

theorem update_log_eq (le : Bool) (c : sha1_ctx) (data : List Nat)
    (hlen : data.length < 2 ^ 63) :
    (sha1_update_log le c data).2 = update_calls c.j data.length := by
  have hj : (c.count0 >>> 3) &&& 63 = c.j := rfl
  have hjlt := j_lt c
  have hm : (c.j + data.length) % 2 ^ 64 = c.j + data.length := Nat.mod_eq_of_lt (by omega)
  unfold sha1_update_log update_calls
  simp only [hj, hm]
  by_cases h : c.j + data.length < 64
  · have hm2 : (data.length + 2 ^ 64 - 0) % 2 ^ 64 = data.length := by omega
    rw [if_neg (by omega), if_pos h, hm2]
  · have hq : (data.length - (64 - c.j)) / 64 = (c.j + data.length) / 64 - 1 := by omega
    rw [if_pos (by omega), if_neg h]
    simp only [(update_loop_log_fst le data _ _ _ _ _).1,
      update_loop_log_eq le data hlen _ _ _ _ (show 64 - c.j ≤ data.length by omega)
        (show (data.length - (64 - c.j)) / 64 ≤ data.length by omega),
      update_loop_eq le data hlen _ _ _ (show 64 - c.j ≤ data.length by omega)
        (show (data.length - (64 - c.j)) / 64 ≤ data.length by omega), hq]
    have hm2 : (data.length + 2 ^ 64 - (64 - c.j + 64 * ((c.j + data.length) / 64 - 1))) % 2 ^ 64
        = data.length - (64 - c.j + 64 * ((c.j + data.length) / 64 - 1)) := by omega
    rw [hm2]
    rfl

theorem transforms_update_calls (j len : Nat) (hj : j < 64) :
    transforms (update_calls j len) = (j + len) / 64 := by
  unfold update_calls transforms
  split
  · rename_i h
    have : (j + len) / 64 = 0 := by omega
    rw [this]; rfl
  · rename_i h
    have hall : ∀ l : List Nat, (l.map Event.transform_data).countP Event.is_transform = l.length := by
      intro l
      induction l with
      | nil => rfl
      | cons a l ih => simp [List.countP_cons, Event.is_transform, ih]
    rw [List.countP_append, List.countP_append, hall, List.length_range']
    simp [List.countP_cons, Event.is_transform]
    omega

theorem in_bounds_update_calls (j len : Nat) (hj : j < 64) :
    ∀ e ∈ update_calls j len, e.in_bounds len := by
  intro e he
  unfold update_calls at he
  split at he
  · rw [List.mem_singleton] at he
    subst he
    exact ⟨by omega, by omega⟩
  · rename_i h
    simp only [List.mem_append, List.mem_cons, List.mem_singleton, List.mem_map,
      List.mem_nil_iff, or_false] at he
    rcases he with ((he | he) | ⟨off, hoff, he⟩) | he
    · subst he; exact ⟨by omega, by omega⟩
    · subst he; trivial
    · subst he
      rw [List.mem_range'] at hoff
      obtain ⟨k, hk, rfl⟩ := hoff
      show 64 - j + 64 * k + 64 ≤ len
      omega
    · subst he
      exact ⟨by omega, by omega⟩

/-! ## The calls of `sha1_final` and its padding loop -/

theorem transforms_append (l l' : List Event) :
    transforms (l ++ l') = transforms l + transforms l' := by
  simp [transforms, List.countP_append]

theorem transforms_update (le : Bool) (c : sha1_ctx) (data : List Nat)
    (hlen : data.length < 2 ^ 63) :
    transforms (sha1_update_log le c data).2 = (c.j + data.length) / 64 := by
  rw [update_log_eq le c data hlen, transforms_update_calls _ _ (j_lt c)]

theorem final_pad_log_fst (le : Bool) (fuel : Nat) (c : sha1_ctx) (log : List Event) :
    (sha1_final_pad_log le fuel c log).1 = sha1_final_pad le fuel c := by
  induction fuel generalizing c log with
  | zero => rfl
  | succ fuel ih =>
    rw [sha1_final_pad_log, sha1_final_pad]
    split
    · rw [ih, update_log_fst]
    · rfl

theorem final_log_fst (le : Bool) (c : sha1_ctx) : (sha1_final_log le c).1 = sha1_final le c := by
  unfold sha1_final_log sha1_final
  simp only [update_log_fst, final_pad_log_fst]

theorem pad_iterate_j (le : Bool) (m : Nat) (c : sha1_ctx) :
    ((fun c => sha1_update le c [0])^[m] c).j = (c.j + m) % 64 := by
  induction m with
  | zero =>
    have := j_lt c
    simp only [Function.iterate_zero, id_eq, Nat.add_zero]
    omega
  | succ m ih =>
    rw [Function.iterate_succ_apply', update_j, ih, List.length_singleton]
    omega

theorem final_pad_eq_iterate (le : Bool) (fuel : Nat) (c : sha1_ctx)
    (hf : (120 - c.j) % 64 ≤ fuel) :
    sha1_final_pad le fuel c = (fun c => sha1_update le c [0])^[(120 - c.j) % 64] c := by
  have hjlt := j_lt c
  induction fuel generalizing c with
  | zero =>
    have h0 : (120 - c.j) % 64 = 0 := by omega
    rw [h0]; rfl
  | succ fuel ih =>
    rw [sha1_final_pad]
    by_cases hj : c.j = 56
    · have h0 : (120 - c.j) % 64 = 0 := by omega
      rw [if_neg (by rw [pad_cond]; simpa using hj), h0]
      rfl
    · have uj : (sha1_update le c [0]).j = (c.j + 1) % 64 := by
        simpa using update_j le c [0]
      have hk : (120 - c.j) % 64 = (120 - (sha1_update le c [0]).j) % 64 + 1 := by
        rw [uj]; omega
      rw [if_pos ((pad_cond c).2 hj), ih (sha1_update le c [0]) (by omega) (j_lt _), hk,
        Function.iterate_succ_apply]

theorem final_pad_j (le : Bool) (fuel : Nat) (c : sha1_ctx) (hf : (120 - c.j) % 64 ≤ fuel) :
    (sha1_final_pad le fuel c).j = 56 := by
  have hjlt := j_lt c
  rw [final_pad_eq_iterate le fuel c hf, pad_iterate_j]
  omega

theorem transforms_final_pad (le : Bool) (fuel : Nat) (c : sha1_ctx) (log : List Event)
    (hf : (120 - c.j) % 64 ≤ fuel) :
    transforms (sha1_final_pad_log le fuel c log).2
      = transforms log + (if 57 ≤ c.j then 1 else 0) := by
  have hjlt := j_lt c
  induction fuel generalizing c log with
  | zero =>
    have hj : c.j = 56 := by omega
    rw [sha1_final_pad_log, if_neg (by omega)]
    rfl
  | succ fuel ih =>
    rw [sha1_final_pad_log]
    by_cases hj : c.j = 56
    · rw [if_neg (by rw [pad_cond]; simpa using hj), if_neg (by omega)]
      rfl
    · have uj : (sha1_update le c [0]).j = (c.j + 1) % 64 := by
        simpa using update_j le c [0]
      have ht := transforms_update le c [0] (by simp)
      rw [List.length_singleton] at ht
      rw [if_pos ((pad_cond c).2 hj), update_log_fst,
        ih (sha1_update le c [0]) _ (by rw [uj]; omega) (j_lt _), transforms_append, ht, uj]
      split <;> split <;> omega

theorem finalcount_length (c : sha1_ctx) : (finalcount c).length = 8 := by
  simp [finalcount]

theorem transforms_final (le : Bool) (c : sha1_ctx) :
    transforms (sha1_final_log le c).2 = if c.j ≤ 55 then 1 else 2 := by
  have hjlt := j_lt c
  have uj : (sha1_update le c [0x80]).j = (c.j + 1) % 64 := by
    simpa using update_j le c [0x80]
  have h1 := transforms_update le c [0x80] (by simp)
  rw [List.length_singleton] at h1
  have h2 := transforms_final_pad le 64 (sha1_update le c [0x80])
    (sha1_update_log le c [0x80]).2 (by have := j_lt (sha1_update le c [0x80]); omega)
  have h3 := transforms_update le (sha1_final_pad le 64 (sha1_update le c [0x80])) (finalcount c)
    (by rw [finalcount_length]; norm_num)
  rw [final_pad_j le 64 _ (by have := j_lt (sha1_update le c [0x80]); omega),
    finalcount_length] at h3
  unfold sha1_final_log
  simp only [update_log_fst, final_pad_log_fst, transforms_append, h2, h1, h3, uj]
  split <;> split <;> omega

theorem final_last_update (le : Bool) (c : sha1_ctx) :
    transforms (sha1_update_log le (sha1_final_pad le 64 (sha1_update le c [0x80]))
        (finalcount c)).2 = 1 ∧
    (sha1_update le (sha1_final_pad le 64 (sha1_update le c [0x80])) (finalcount c)).j = 0 := by
  have hp := final_pad_j le 64 (sha1_update le c [0x80])
    (by have := j_lt (sha1_update le c [0x80]); omega)
  constructor
  · rw [transforms_update le _ _ (by rw [finalcount_length]; norm_num), hp, finalcount_length]
  · rw [update_j, hp, finalcount_length]

/-! ## The context after a sequence of updates -/

theorem update_count_exact (count0 count1 len : Nat) (h0 : count0 < 2 ^ 32)
    (hlen : len < 2 ^ 29) :
    (sha1_update_count count0 count1 len).2 * 2 ^ 32 + (sha1_update_count count0 count1 len).1
      = (count1 * 2 ^ 32 + count0 + 8 * len) % 2 ^ 64 := by
  simp only [sha1_update_count, Nat.shiftLeft_eq, Nat.shiftRight_eq_div_pow]
  split <;> omega

theorem updates_inv (le : Bool) (chunks : List (List Nat)) (c : sha1_ctx)
    (hb : c.buffer.length = 64) (h0 : c.count0 < 2 ^ 32) (h1 : c.count1 < 2 ^ 32)
    (hch : ∀ ch ∈ chunks, ch.length < 2 ^ 29) :
    (chunks.foldl (sha1_update le) c).hs = (absorb le c.hs c.pending chunks.flatten).1 ∧
    (chunks.foldl (sha1_update le) c).pending = (absorb le c.hs c.pending chunks.flatten).2 ∧
    (chunks.foldl (sha1_update le) c).buffer.length = 64 ∧
    (chunks.foldl (sha1_update le) c).j = (c.j + chunks.flatten.length) % 64 ∧
    (chunks.foldl (sha1_update le) c).count1 * 2 ^ 32 + (chunks.foldl (sha1_update le) c).count0
      = (c.count1 * 2 ^ 32 + c.count0 + 8 * chunks.flatten.length) % 2 ^ 64 := by
  induction chunks generalizing c with
  | nil =>
    have := j_lt c
    simp only [List.foldl_nil, List.flatten_nil, List.length_nil]
    rw [absorb_nil le _ _ (by rw [pending_length c hb]; omega)]
    exact ⟨rfl, rfl, hb, by omega, by omega⟩
  | cons x xs ih =>
    have hx : x.length < 2 ^ 29 := hch x (List.mem_cons_self _ _)
    obtain ⟨u1, u2, u3⟩ := update_spec le c x hb (by omega)
    obtain ⟨k0, k1⟩ := update_count le c x
    obtain ⟨l0, l1⟩ := update_count_lt le c x
    have ke := update_count_exact c.count0 c.count1 x.length h0 hx
    rw [← k0, ← k1] at ke
    obtain ⟨i1, i2, i3, i4, i5⟩ := ih (sha1_update le c x) u3 l0 l1
      (fun ch h => hch ch (List.mem_cons_of_mem _ h))
    rw [u1, u2, absorb_absorb] at i1 i2
    rw [update_j] at i4
    rw [ke] at i5
    simp only [List.foldl_cons, List.flatten_cons, List.length_append]
    refine ⟨i1, i2, i3, ?_, ?_⟩
    · rw [i4]; omega
    · rw [i5]; omega

theorem foldl_transform_hs (le : Bool) (n : Nat) (c : sha1_ctx) (x : List Nat) :
    ((fips_blocks n x).foldl (sha1_transform le) c).hs = hash_blocks le n c.hs x := by
  induction n generalizing c x with
  | zero => rfl
  | succ n ih =>
    rw [fips_blocks, List.foldl_cons, ih, hash_blocks, transform_eq, set_hs_hs]

theorem updates_after_init (le : Bool) (c : sha1_ctx) (chunks : List (List Nat))
    (hb : c.buffer.length = 64) (hch : ∀ ch ∈ chunks, ch.length < 2 ^ 29) :
    ((chunks.foldl (sha1_update le) (sha1_init c)).count0 >>> 3) &&& 63
      = chunks.flatten.length % 64 ∧
    (chunks.foldl (sha1_update le) (sha1_init c)).buffer.take (chunks.flatten.length % 64)
      = chunks.flatten.drop (chunks.flatten.length - chunks.flatten.length % 64) ∧
    (chunks.foldl (sha1_update le) (sha1_init c)).count1 * 2 ^ 32
        + (chunks.foldl (sha1_update le) (sha1_init c)).count0
      = (8 * chunks.flatten.length) % 2 ^ 64 ∧
    (chunks.foldl (sha1_update le) (sha1_init c)).hs
      = ((fips_blocks (chunks.flatten.length / 64) chunks.flatten).foldl (sha1_transform le)
          (sha1_init c)).hs := by
  obtain ⟨i1, i2, _, i4, i5⟩ := updates_inv le chunks (sha1_init c) hb (init_count_lt c).1
    (init_count_lt c).2 hch
  rw [init_j, Nat.zero_add] at i4
  rw [init_hs, init_pending] at i1 i2
  simp only [absorb, List.nil_append] at i1 i2
  have hj : ((chunks.foldl (sha1_update le) (sha1_init c)).count0 >>> 3) &&& 63
      = (chunks.foldl (sha1_update le) (sha1_init c)).j := rfl
  have hd : chunks.flatten.length - chunks.flatten.length % 64
      = chunks.flatten.length / 64 * 64 := by omega
  refine ⟨by rw [hj, i4], ?_, ?_, ?_⟩
  · rw [hd, ← i2, sha1_ctx.pending, i4]
  · rw [i5]
    show (0 * 2 ^ 32 + 0 + 8 * chunks.flatten.length) % 2 ^ 64 = _
    omega
  · rw [i1, foldl_transform_hs, init_hs]

/-! ## A context used again after `sha1_final` -/

set_option maxRecDepth 100000 in
theorem kat_empty_state (le : Bool) :
    (absorb le IV [] (message_padding 0)).1 = (3661210606, 1584089869, 844480495, 2506102928, 2950170377) := by
  cases le <;> decide!

set_option maxRecDepth 100000 in
theorem kat_reuse (le : Bool) :
    digest_of (wiped (absorb le (3661210606, 1584089869, 844480495, 2506102928, 2950170377) []
        (message_padding 0)).1)
      = [0x24, 0x85, 0xE7, 0x53, 0x9B, 0x2C, 0x97, 0xA2, 0x1E, 0x71, 0x85, 0x25, 0xBF, 0x51,
       0xD5, 0x6D, 0x15, 0x59, 0xA0, 0xEE] := by
  cases le <;> decide!

theorem final_after_init (le : Bool) (c : sha1_ctx) (hb : c.buffer.length = 64) :
    (sha1_final le (sha1_init c)).1 = wiped (3661210606, 1584089869, 844480495, 2506102928, 2950170377) := by
  rw [final_spec le _ (show (sha1_init c).buffer.length = 64 from hb), init_hs, init_pending]
  have hf : final_padding (sha1_init c) = message_padding 0 := rfl
  rw [hf, kat_empty_state]

theorem final_reused (le : Bool) (c : sha1_ctx) (hb : c.buffer.length = 64) :
    (sha1_final le (sha1_update le (sha1_final le (sha1_init c)).1 [])).2
      = [0x24, 0x85, 0xE7, 0x53, 0x9B, 0x2C, 0x97, 0xA2, 0x1E, 0x71, 0x85, 0x25, 0xBF, 0x51,
       0xD5, 0x6D, 0x15, 0x59, 0xA0, 0xEE] := by
  rw [final_after_init le c hb, update_nil le _ (by decide) (by decide),
    final_spec le _ (by decide)]
  exact kat_reuse le

/-! ## The two host byte orders, and the buffer after an update -/

theorem compress_endian (H : HState) (block : List Nat) (hB : Bytes block) :
    compress true H block = compress false H block := by
  rw [compress_eq, compress_eq, sched_eq true block hB, sched_eq false block hB]

theorem memcpy_fill (buffer data : List Nat) (j : Nat) (hb : buffer.length = 64) (hj : j < 64) :
    memcpy buffer j data (64 - j) = buffer.take j ++ data.take (64 - j) := by
  rw [memcpy, List.drop_of_length_le (by omega), List.append_nil]

theorem update_rest (le : Bool) (c : sha1_ctx) (data : List Nat) (hb : c.buffer.length = 64)
    (hlen : data.length < 2 ^ 63) (h : 64 ≤ c.j + data.length) :
    (sha1_update le c data).buffer.take ((c.j + data.length) % 64)
      = data.drop (data.length - (c.j + data.length) % 64) := by
  have hjlt := j_lt c
  obtain ⟨_, u2, _⟩ := update_spec le c data hb hlen
  have hpl := pending_length c hb
  rw [sha1_ctx.pending, update_j] at u2
  rw [u2]
  simp only [absorb, List.length_append, hpl]
  rw [List.drop_append_eq_append_drop, List.drop_of_length_le (by rw [hpl]; omega),
    List.nil_append, hpl]
  congr 1
  omega

/-! ## The claims -/

/-- C1: for every host byte order, every context with a 64-byte buffer and every byte sequence
`m` shorter than `2^29` bytes, `sha1_init`, one `sha1_update` with `m` and `sha1_final` return
the FIPS 180-1 digest of `m`: `m` is padded with `0x80`, the least number of zero bytes that
makes the length congruent to 56 modulo 64 and the 64-bit big-endian value `8 * |m|`; the
compression function is folded over the 64-byte blocks from the initial hash value; the five
words are written big-endian. -/
theorem sha1_correct (le : Bool) (c : sha1_ctx) (m : List Nat) (hb : c.buffer.length = 64)
    (hB : Bytes m) (hm : m.length < 2 ^ 29) :
    (sha1_final le (sha1_update le (sha1_init c) m)).2 = fips_sha1 m := by
  rw [sha1_eq_fips le c m hb hB hm]

theorem sha1_correct_witness :
    zero_ctx.buffer.length = 64 ∧ Bytes [0x61, 0x62, 0x63] ∧ [0x61, 0x62, 0x63].length < 2 ^ 29 ∧
    (sha1_final true (sha1_update true (sha1_init zero_ctx) [0x61, 0x62, 0x63])).2
      = fips_sha1 [0x61, 0x62, 0x63] :=
  ⟨rfl, by simp [Bytes], by decide,
    sha1_correct true zero_ctx [0x61, 0x62, 0x63] rfl (by simp [Bytes]) (by decide)⟩

/-- C2: splitting a message shorter than `2^29` bytes into consecutive chunks in any way
(empty chunks, single bytes, chunks across block boundaries) and passing the chunks to
`sha1_update` one after the other after `sha1_init` makes `sha1_final` return the same
digest as one `sha1_update` with the whole message. -/
theorem sha1_update_chunks (le : Bool) (c : sha1_ctx) (chunks : List (List Nat))
    (hb : c.buffer.length = 64) (hm : chunks.flatten.length < 2 ^ 29) :
    (sha1_final le (chunks.foldl (sha1_update le) (sha1_init c))).2
      = (sha1_final le (sha1_update le (sha1_init c) chunks.flatten)).2 := by
  have hb0 : (sha1_init c).buffer.length = 64 := hb
  obtain ⟨a1, a2, a3⟩ := updates_spec le chunks (sha1_init c) hb0 (by omega)
  have hf : [chunks.flatten].flatten = chunks.flatten := by
    simp only [List.flatten_cons, List.flatten_nil, List.append_nil]
  obtain ⟨b1, b2, b3⟩ := updates_spec le [chunks.flatten] (sha1_init c) hb0
    (by rw [hf]; omega)
  obtain ⟨a4, a5⟩ := updates_count le chunks (sha1_init c)
    (by show 0 + _ < _; omega) (by show 0 < _; norm_num)
  obtain ⟨b4, b5⟩ := updates_count le [chunks.flatten] (sha1_init c)
    (by show 0 + _ < _; rw [hf]; omega) (by show 0 < _; norm_num)
  simp only [List.foldl_cons, List.foldl_nil, List.flatten_cons, List.flatten_nil,
    List.append_nil] at b1 b2 b3 b4 b5
  rw [final_congr le _ _ a3 b3 (by rw [a1, b1]) (by rw [a2, b2]) (by rw [a4, b4])
    (by rw [a5, b5])]

theorem sha1_update_chunks_witness :
    zero_ctx.buffer.length = 64 ∧
    [List.replicate 60 1, List.replicate 10 2, [], [3]].flatten.length < 2 ^ 29 ∧
    (sha1_final true ([List.replicate 60 1, List.replicate 10 2, [], [3]].foldl
        (sha1_update true) (sha1_init zero_ctx))).2
      = (sha1_final true (sha1_update true (sha1_init zero_ctx)
          [List.replicate 60 1, List.replicate 10 2, [], [3]].flatten)).2 :=
  ⟨rfl, by decide, sha1_update_chunks true zero_ctx _ rfl (by decide)⟩

/-- C3 (the code at the failing input): after `sha1_init`, one `sha1_update` with
`len = 2^29` bytes leaves `count[1] = 2` and `count[0] = 0`, so the 64-bit counter holds
`2^33` although `8 * len = 2^32`: the comparison `count[0] < (len << 3)` is made against the
untruncated 64-bit value and reports a carry that did not happen. -/
theorem sha1_update_counter_2pow29 :
    (sha1_update true (sha1_init zero_ctx) (List.replicate (2 ^ 29) 0)).count0 = 0 ∧
    (sha1_update true (sha1_init zero_ctx) (List.replicate (2 ^ 29) 0)).count1 = 2 ∧
    (sha1_update true (sha1_init zero_ctx) (List.replicate (2 ^ 29) 0)).count1 * 2 ^ 32
      + (sha1_update true (sha1_init zero_ctx) (List.replicate (2 ^ 29) 0)).count0
      ≠ ((sha1_init zero_ctx).count1 * 2 ^ 32 + (sha1_init zero_ctx).count0 + 8 * 2 ^ 29)
          % 2 ^ 64 := by
  obtain ⟨k0, k1⟩ := update_count true (sha1_init zero_ctx) (List.replicate (2 ^ 29) 0)
  rw [List.length_replicate] at k0 k1
  have e : sha1_update_count (sha1_init zero_ctx).count0 (sha1_init zero_ctx).count1 (2 ^ 29)
      = (0, 2) := by decide
  rw [e] at k0 k1
  rw [k0, k1]
  decide

/-- C4: for every host byte order and every context with a 64-byte buffer, `sha1_init`,
`sha1_update` with the three bytes "abc" and `sha1_final` return the digest
A9993E36 4706816A BA3E2571 7850C26C 9CD0D89D. -/
theorem sha1_abc (le : Bool) (c : sha1_ctx) (hb : c.buffer.length = 64) :
    (sha1_final le (sha1_update le (sha1_init c) [0x61, 0x62, 0x63])).2
      = [0xA9, 0x99, 0x3E, 0x36, 0x47, 0x06, 0x81, 0x6A, 0xBA, 0x3E, 0x25, 0x71, 0x78, 0x50,
     0xC2, 0x6C, 0x9C, 0xD0, 0xD8, 0x9D] := by
  rw [sha1_digest_eq le c _ hb (by decide)]
  exact kat_abc le

theorem sha1_abc_witness :
    zero_ctx.buffer.length = 64 ∧
    (sha1_final true (sha1_update true (sha1_init zero_ctx) [0x61, 0x62, 0x63])).2
      = [0xA9, 0x99, 0x3E, 0x36, 0x47, 0x06, 0x81, 0x6A, 0xBA, 0x3E, 0x25, 0x71, 0x78, 0x50,
     0xC2, 0x6C, 0x9C, 0xD0, 0xD8, 0x9D] :=
  ⟨rfl, sha1_abc true zero_ctx rfl⟩

/-- C5: for every host byte order and every context with a 64-byte buffer, `sha1_init`,
`sha1_update` with the 56 bytes "abcdbcdecdefdefgefghfghighijhijkijkljklmklmnlmnomnopnopq"
and `sha1_final` return the digest 84983E44 1C3BD26E BAAE4AA1 F95129E5 E54670F1. -/
theorem sha1_56_bytes (le : Bool) (c : sha1_ctx) (hb : c.buffer.length = 64) :
    (sha1_final le (sha1_update le (sha1_init c)
      [0x61, 0x62, 0x63, 0x64, 0x62, 0x63, 0x64, 0x65, 0x63, 0x64, 0x65, 0x66, 0x64, 0x65,
     0x66, 0x67, 0x65, 0x66, 0x67, 0x68, 0x66, 0x67, 0x68, 0x69, 0x67, 0x68, 0x69, 0x6A,
     0x68, 0x69, 0x6A, 0x6B, 0x69, 0x6A, 0x6B, 0x6C, 0x6A, 0x6B, 0x6C, 0x6D, 0x6B, 0x6C,
     0x6D, 0x6E, 0x6C, 0x6D, 0x6E, 0x6F, 0x6D, 0x6E, 0x6F, 0x70, 0x6E, 0x6F, 0x70, 0x71])).2
      = [0x84, 0x98, 0x3E, 0x44, 0x1C, 0x3B, 0xD2, 0x6E, 0xBA, 0xAE, 0x4A, 0xA1, 0xF9, 0x51,
     0x29, 0xE5, 0xE5, 0x46, 0x70, 0xF1] := by
  rw [sha1_digest_eq le c _ hb (by decide)]
  exact kat_56 le

theorem sha1_56_bytes_witness :
    zero_ctx.buffer.length = 64 ∧
    (sha1_final false (sha1_update false (sha1_init zero_ctx)
      [0x61, 0x62, 0x63, 0x64, 0x62, 0x63, 0x64, 0x65, 0x63, 0x64, 0x65, 0x66, 0x64, 0x65,
     0x66, 0x67, 0x65, 0x66, 0x67, 0x68, 0x66, 0x67, 0x68, 0x69, 0x67, 0x68, 0x69, 0x6A,
     0x68, 0x69, 0x6A, 0x6B, 0x69, 0x6A, 0x6B, 0x6C, 0x6A, 0x6B, 0x6C, 0x6D, 0x6B, 0x6C,
     0x6D, 0x6E, 0x6C, 0x6D, 0x6E, 0x6F, 0x6D, 0x6E, 0x6F, 0x70, 0x6E, 0x6F, 0x70, 0x71])).2
      = [0x84, 0x98, 0x3E, 0x44, 0x1C, 0x3B, 0xD2, 0x6E, 0xBA, 0xAE, 0x4A, 0xA1, 0xF9, 0x51,
     0x29, 0xE5, 0xE5, 0x46, 0x70, 0xF1] :=
  ⟨rfl, sha1_56_bytes false zero_ctx rfl⟩

/-- C6: for every host byte order and every context with a 64-byte buffer, `sha1_final`
right after `sha1_init`, or after `sha1_init` and any number of `sha1_update` calls with
`len == 0`, returns the digest DA39A3EE 5E6B4B0D 3255BFEF 95601890 AFD80709. -/
theorem sha1_empty (le : Bool) (c : sha1_ctx) (hb : c.buffer.length = 64) (n : Nat) :
    (sha1_final le (sha1_init c)).2
      = [0xDA, 0x39, 0xA3, 0xEE, 0x5E, 0x6B, 0x4B, 0x0D, 0x32, 0x55, 0xBF, 0xEF, 0x95, 0x60,
     0x18, 0x90, 0xAF, 0xD8, 0x07, 0x09] ∧
    (sha1_final le ((List.replicate n []).foldl (sha1_update le) (sha1_init c))).2
      = [0xDA, 0x39, 0xA3, 0xEE, 0x5E, 0x6B, 0x4B, 0x0D, 0x32, 0x55, 0xBF, 0xEF, 0x95, 0x60,
     0x18, 0x90, 0xAF, 0xD8, 0x07, 0x09] := by
  have h : (sha1_final le (sha1_init c)).2
      = [0xDA, 0x39, 0xA3, 0xEE, 0x5E, 0x6B, 0x4B, 0x0D, 0x32, 0x55, 0xBF, 0xEF, 0x95, 0x60,
     0x18, 0x90, 0xAF, 0xD8, 0x07, 0x09] := by
    rw [← update_nil le (sha1_init c) (init_count_lt c).1 (init_count_lt c).2,
      sha1_digest_eq le c _ hb (by decide)]
    exact kat_empty le
  rw [updates_nil le n (sha1_init c) (init_count_lt c).1 (init_count_lt c).2]
  exact ⟨h, h⟩

theorem sha1_empty_witness :
    zero_ctx.buffer.length = 64 ∧
    (sha1_final true (sha1_init zero_ctx)).2
      = [0xDA, 0x39, 0xA3, 0xEE, 0x5E, 0x6B, 0x4B, 0x0D, 0x32, 0x55, 0xBF, 0xEF, 0x95, 0x60,
     0x18, 0x90, 0xAF, 0xD8, 0x07, 0x09] ∧
    (sha1_final true ((List.replicate 3 []).foldl (sha1_update true) (sha1_init zero_ctx))).2
      = [0xDA, 0x39, 0xA3, 0xEE, 0x5E, 0x6B, 0x4B, 0x0D, 0x32, 0x55, 0xBF, 0xEF, 0x95, 0x60,
     0x18, 0x90, 0xAF, 0xD8, 0x07, 0x09] :=
  ⟨rfl, sha1_empty true zero_ctx rfl 3⟩

/-- C7: for every host byte order and every context with a 64-byte buffer, `sha1_init`,
`sha1_update` with one million bytes `0x61` and `sha1_final` return the digest
34AA973C D4C4DAA4 F61EEB2B DBAD2731 6534016F. -/
theorem sha1_million_a (le : Bool) (c : sha1_ctx) (hb : c.buffer.length = 64) :
    (sha1_final le (sha1_update le (sha1_init c) (List.replicate 1000000 0x61))).2
      = [0x34, 0xAA, 0x97, 0x3C, 0xD4, 0xC4, 0xDA, 0xA4, 0xF6, 0x1E, 0xEB, 0x2B, 0xDB, 0xAD,
     0x27, 0x31, 0x65, 0x34, 0x01, 0x6F] := by
  rw [sha1_digest_eq le c _ hb (by rw [List.length_replicate]; norm_num), List.length_replicate,
    million_a_state le]
  decide

theorem sha1_million_a_witness :
    zero_ctx.buffer.length = 64 ∧
    (sha1_final true (sha1_update true (sha1_init zero_ctx) (List.replicate 1000000 0x61))).2
      = [0x34, 0xAA, 0x97, 0x3C, 0xD4, 0xC4, 0xDA, 0xA4, 0xF6, 0x1E, 0xEB, 0x2B, 0xDB, 0xAD,
     0x27, 0x31, 0x65, 0x34, 0x01, 0x6F] :=
  ⟨rfl, sha1_million_a true zero_ctx rfl⟩

/-- C8: for every context (any `h`, any buffer, any two 32-bit count words), `sha1_update`
with `len == 0` returns the context unchanged; hence for every context and every message `x`
the calls update(x), update(""), final give the same result as update(x), final. -/
theorem sha1_update_empty (le : Bool) (c : sha1_ctx) (h0 : c.count0 < 2 ^ 32)
    (h1 : c.count1 < 2 ^ 32) :
    sha1_update le c [] = c ∧
    ∀ x : List Nat, sha1_final le (sha1_update le (sha1_update le c x) [])
      = sha1_final le (sha1_update le c x) := by
  refine ⟨update_nil le c h0 h1, fun x => ?_⟩
  rw [update_nil le _ (update_count_lt le c x).1 (update_count_lt le c x).2]

theorem sha1_update_empty_witness :
    (⟨1, 2, 3, 4, 5, 808, 9, List.replicate 64 7⟩ : sha1_ctx).count0 < 2 ^ 32 ∧
    (⟨1, 2, 3, 4, 5, 808, 9, List.replicate 64 7⟩ : sha1_ctx).count1 < 2 ^ 32 ∧
    (sha1_update true ⟨1, 2, 3, 4, 5, 808, 9, List.replicate 64 7⟩ []
      = ⟨1, 2, 3, 4, 5, 808, 9, List.replicate 64 7⟩ ∧
    ∀ x : List Nat,
      sha1_final true (sha1_update true
          (sha1_update true ⟨1, 2, 3, 4, 5, 808, 9, List.replicate 64 7⟩ x) [])
        = sha1_final true (sha1_update true ⟨1, 2, 3, 4, 5, 808, 9, List.replicate 64 7⟩ x)) :=
  ⟨by decide, by decide, sha1_update_empty true _ (by decide) (by decide)⟩

/-- C9: for any two contexts with 64-byte buffers, whatever their `h`, `count` and buffer
contents, and every message shorter than `2^29` bytes, `sha1_init`, `sha1_update`,
`sha1_final` run on the one return the same digest as run on the other. -/
theorem sha1_init_forgets (le : Bool) (c c' : sha1_ctx) (m : List Nat)
    (hc : c.buffer.length = 64) (hc' : c'.buffer.length = 64) (hm : m.length < 2 ^ 29) :
    (sha1_final le (sha1_update le (sha1_init c) m)).2
      = (sha1_final le (sha1_update le (sha1_init c') m)).2 := by
  rw [sha1_digest_eq le c m hc hm, sha1_digest_eq le c' m hc' hm]

theorem sha1_init_forgets_witness :
    (⟨1, 2, 3, 4, 5, 808, 9, List.replicate 64 7⟩ : sha1_ctx).buffer.length = 64 ∧
    zero_ctx.buffer.length = 64 ∧ [10, 20, 30].length < 2 ^ 29 ∧
    (sha1_final true (sha1_update true
        (sha1_init ⟨1, 2, 3, 4, 5, 808, 9, List.replicate 64 7⟩) [10, 20, 30])).2
      = (sha1_final true (sha1_update true (sha1_init zero_ctx) [10, 20, 30])).2 :=
  ⟨rfl, rfl, by decide, sha1_init_forgets true _ zero_ctx [10, 20, 30] rfl rfl (by decide)⟩

/-- C10: for every context, `sha1_final` writes exactly 20 digest bytes and returns a
context whose buffer is 64 zero bytes and whose two count words are zero, while `h` is the
hash state reached by the last `sha1_update` (not wiped); digest byte `i` is
`(h[i / 4] >> (8 * (3 - i mod 4))) & 0xFF` of the returned context, for every `i < 20`. -/
theorem sha1_final_frame (le : Bool) (c : sha1_ctx) :
    (sha1_final le c).2.length = 20 ∧
    (sha1_final le c).1.buffer = List.replicate 64 0 ∧
    (sha1_final le c).1.count0 = 0 ∧ (sha1_final le c).1.count1 = 0 ∧
    (sha1_final le c).1.hs
      = (sha1_update le (sha1_final_pad le 64 (sha1_update le c [0x80])) (finalcount c)).hs ∧
    ∀ i, i < 20 →
      (sha1_final le c).2.getD i 0
        = ((sha1_final le c).1.h (i / 4) >>> (8 * (3 - i % 4))) &&& 0xFF := by
  refine ⟨digest_of_length _, rfl, rfl, rfl, rfl, fun i hi => ?_⟩
  exact digest_of_getD _ i hi

/-- C11: for every context, `sha1_init` sets `h` to (0x67452301, 0xEFCDAB89, 0x98BADCFE,
0x10325476, 0xC3D2E1F0) and `count` to {0, 0}, leaves the buffer as it is, and applying it
twice equals applying it once. -/
theorem sha1_init_sets (c : sha1_ctx) :
    (sha1_init c).h0 = 0x67452301 ∧ (sha1_init c).h1 = 0xEFCDAB89 ∧
    (sha1_init c).h2 = 0x98BADCFE ∧ (sha1_init c).h3 = 0x10325476 ∧
    (sha1_init c).h4 = 0xC3D2E1F0 ∧
    (sha1_init c).count0 = 0 ∧ (sha1_init c).count1 = 0 ∧
    (sha1_init c).buffer = c.buffer ∧
    sha1_init (sha1_init c) = sha1_init c :=
  ⟨rfl, rfl, rfl, rfl, rfl, rfl, rfl, rfl, rfl⟩

/-- C12: a context used again after `sha1_final` without a new `sha1_init` does not compute
SHA-1: for the empty message, `sha1_update`, `sha1_final` on the context returned by
`sha1_init`, `sha1_final` give a digest different from the one `sha1_init`, `sha1_update`,
`sha1_final` give; the returned context has `count` and the buffer zeroed, and its `h` is the
state of the previous digest, not the initialization constants. -/
theorem sha1_reuse_differs (le : Bool) (c : sha1_ctx) (hb : c.buffer.length = 64) :
    (sha1_final le (sha1_update le (sha1_final le (sha1_init c)).1 [])).2
      ≠ (sha1_final le (sha1_update le (sha1_init (sha1_final le (sha1_init c)).1) [])).2 ∧
    (sha1_final le (sha1_init c)).1.count0 = 0 ∧ (sha1_final le (sha1_init c)).1.count1 = 0 ∧
    (sha1_final le (sha1_init c)).1.buffer = List.replicate 64 0 ∧
    (sha1_final le (sha1_init c)).1.hs
      = (3661210606, 1584089869, 844480495, 2506102928, 2950170377) ∧
    (sha1_final le (sha1_init c)).1.hs ≠ (sha1_init c).hs := by
  have hl : (sha1_final le (sha1_init c)).1.buffer.length = 64 := by
    rw [show (sha1_final le (sha1_init c)).1.buffer = List.replicate 64 0 from rfl,
      List.length_replicate]
  have hs : (sha1_final le (sha1_init c)).1.hs
      = (3661210606, 1584089869, 844480495, 2506102928, 2950170377) := by
    rw [final_after_init le c hb]; rfl
  refine ⟨?_, rfl, rfl, rfl, hs, ?_⟩
  · have e : (sha1_final le
        (sha1_update le (sha1_init (sha1_final le (sha1_init c)).1) [])).2
        = [0xDA, 0x39, 0xA3, 0xEE, 0x5E, 0x6B, 0x4B, 0x0D, 0x32, 0x55, 0xBF, 0xEF, 0x95, 0x60,
            0x18, 0x90, 0xAF, 0xD8, 0x07, 0x09] := by
      rw [sha1_digest_eq le _ _ hl (by decide)]
      exact kat_empty le
    rw [final_reused le c hb, e]
    decide
  · rw [hs, init_hs]
    decide

theorem sha1_reuse_differs_witness :
    zero_ctx.buffer.length = 64 ∧
    ((sha1_final true (sha1_update true (sha1_final true (sha1_init zero_ctx)).1 [])).2
      ≠ (sha1_final true
          (sha1_update true (sha1_init (sha1_final true (sha1_init zero_ctx)).1) [])).2 ∧
    (sha1_final true (sha1_init zero_ctx)).1.count0 = 0 ∧
    (sha1_final true (sha1_init zero_ctx)).1.count1 = 0 ∧
    (sha1_final true (sha1_init zero_ctx)).1.buffer = List.replicate 64 0 ∧
    (sha1_final true (sha1_init zero_ctx)).1.hs
      = (3661210606, 1584089869, 844480495, 2506102928, 2950170377) ∧
    (sha1_final true (sha1_init zero_ctx)).1.hs ≠ (sha1_init zero_ctx).hs) :=
  ⟨rfl, sha1_reuse_differs true zero_ctx rfl⟩

/-- C13: for every host byte order, every context whose `h` holds five 32-bit words and
every block of bytes, `sha1_transform` leaves in `h` the result of the textbook FIPS 180-1
compression `fips_compress` (big-endian words, a separate 80-word schedule, the 80 rounds
with Ch, Parity, Maj, Parity and their constants, then the addition modulo `2^32`), and
leaves `count` and the buffer as they are. -/
theorem sha1_transform_is_fips (le : Bool) (c : sha1_ctx) (block : List Nat)
    (hH : c.hs.Bounded) (hB : Bytes block) :
    (sha1_transform le c block).hs = fips_compress c.hs block ∧
    (sha1_transform le c block).count0 = c.count0 ∧
    (sha1_transform le c block).count1 = c.count1 ∧
    (sha1_transform le c block).buffer = c.buffer := by
  refine ⟨?_, rfl, rfl, rfl⟩
  rw [transform_eq, set_hs_hs, compress_eq_fips le c.hs block hH hB]

theorem sha1_transform_is_fips_witness :
    (sha1_init zero_ctx).hs.Bounded ∧ Bytes block_a ∧
    ((sha1_transform true (sha1_init zero_ctx) block_a).hs
        = fips_compress (sha1_init zero_ctx).hs block_a ∧
      (sha1_transform true (sha1_init zero_ctx) block_a).count0 = (sha1_init zero_ctx).count0 ∧
      (sha1_transform true (sha1_init zero_ctx) block_a).count1 = (sha1_init zero_ctx).count1 ∧
      (sha1_transform true (sha1_init zero_ctx) block_a).buffer = (sha1_init zero_ctx).buffer) :=
  ⟨iv_bounded, by simp [Bytes, block_a],
    sha1_transform_is_fips true (sha1_init zero_ctx) block_a iv_bounded
      (by simp [Bytes, block_a])⟩

/-- C14: after `sha1_init` and any sequence of `sha1_update` calls, each with fewer than
`2^29` bytes, with `x` the concatenation of the inputs: `(count[0] >> 3) & 63` is
`|x| mod 64`, the first `|x| mod 64` bytes of the buffer are the last `|x| mod 64` bytes of
`x`, `count[1] * 2^32 + count[0]` is `8 * |x|` modulo `2^64`, and `h` is the result of
folding `sha1_transform` over the `|x| / 64` complete 64-byte blocks of `x`, in order, from
the initialization constants. -/
theorem sha1_update_invariant (le : Bool) (c : sha1_ctx) (chunks : List (List Nat))
    (hb : c.buffer.length = 64) (hch : ∀ ch ∈ chunks, ch.length < 2 ^ 29) :
    ((chunks.foldl (sha1_update le) (sha1_init c)).count0 >>> 3) &&& 63
      = chunks.flatten.length % 64 ∧
    (chunks.foldl (sha1_update le) (sha1_init c)).buffer.take (chunks.flatten.length % 64)
      = chunks.flatten.drop (chunks.flatten.length - chunks.flatten.length % 64) ∧
    (chunks.foldl (sha1_update le) (sha1_init c)).count1 * 2 ^ 32
        + (chunks.foldl (sha1_update le) (sha1_init c)).count0
      = (8 * chunks.flatten.length) % 2 ^ 64 ∧
    (chunks.foldl (sha1_update le) (sha1_init c)).hs
      = ((fips_blocks (chunks.flatten.length / 64) chunks.flatten).foldl (sha1_transform le)
          (sha1_init c)).hs :=
  updates_after_init le c chunks hb hch

theorem sha1_update_invariant_witness :
    zero_ctx.buffer.length = 64 ∧
    (∀ ch ∈ [List.replicate 60 1, List.replicate 70 2, [], [3]], ch.length < 2 ^ 29) ∧
    ((([List.replicate 60 1, List.replicate 70 2, [], [3]].foldl (sha1_update true)
        (sha1_init zero_ctx)).count0 >>> 3) &&& 63
      = [List.replicate 60 1, List.replicate 70 2, [], [3]].flatten.length % 64 ∧
    ([List.replicate 60 1, List.replicate 70 2, [], [3]].foldl (sha1_update true)
        (sha1_init zero_ctx)).buffer.take
        ([List.replicate 60 1, List.replicate 70 2, [], [3]].flatten.length % 64)
      = [List.replicate 60 1, List.replicate 70 2, [], [3]].flatten.drop
          ([List.replicate 60 1, List.replicate 70 2, [], [3]].flatten.length
            - [List.replicate 60 1, List.replicate 70 2, [], [3]].flatten.length % 64) ∧
    ([List.replicate 60 1, List.replicate 70 2, [], [3]].foldl (sha1_update true)
        (sha1_init zero_ctx)).count1 * 2 ^ 32
        + ([List.replicate 60 1, List.replicate 70 2, [], [3]].foldl (sha1_update true)
            (sha1_init zero_ctx)).count0
      = (8 * [List.replicate 60 1, List.replicate 70 2, [], [3]].flatten.length) % 2 ^ 64 ∧
    ([List.replicate 60 1, List.replicate 70 2, [], [3]].foldl (sha1_update true)
        (sha1_init zero_ctx)).hs
      = ((fips_blocks ([List.replicate 60 1, List.replicate 70 2, [], [3]].flatten.length / 64)
            [List.replicate 60 1, List.replicate 70 2, [], [3]].flatten).foldl
          (sha1_transform true) (sha1_init zero_ctx)).hs) :=
  ⟨rfl, by simp, sha1_update_invariant true zero_ctx _ rfl (by simp)⟩

/-- C15: for every context and every block of bytes, `sha1_transform` reads the block as 16
big-endian 32-bit words on either host byte order: `blk0le` turns the word loaded on a
little-endian host, `b0 + b1*2^8 + b2*2^16 + b3*2^24`, into `b0*2^24 + b1*2^16 + b2*2^8 + b3`,
the word a big-endian host loads; the first sixteen rounds use the big-endian words on both
hosts; so the little-endian branch and the big-endian branch give the same context. -/
theorem sha1_transform_endian (c : sha1_ctx) (block : List Nat) (hB : Bytes block) :
    sha1_transform true c block = sha1_transform false c block ∧
    (∀ k, k < 16 → blk0le (load_block true block) k = blk0be (load_block false block) k) ∧
    (∀ le, run_sched le 16 0 (load_block le block) = fips_words block) ∧
    (∀ b0 b1 b2 b3, b0 < 256 → b1 < 256 → b2 < 256 → b3 < 256 →
      (ror (b0 + b1 * 2 ^ 8 + b2 * 2 ^ 16 + b3 * 2 ^ 24) 8 &&& 0xFF00FF00)
          ||| (rol (b0 + b1 * 2 ^ 8 + b2 * 2 ^ 16 + b3 * 2 ^ 24) 8 &&& 0x00FF00FF)
        = b0 * 2 ^ 24 + b1 * 2 ^ 16 + b2 * 2 ^ 8 + b3) := by
  refine ⟨?_, fun k hk => ?_, fun le => (sched_head le block hB).1,
    fun b0 b1 b2 b3 h0 h1 h2 h3 => bswap_eq b0 b1 b2 b3 h0 h1 h2 h3⟩
  · rw [transform_eq, transform_eq, compress_endian c.hs block hB]
  · rw [load_block, load_block, load_word_swap block hB _ k (getD_map_range _ 16 k hk), blk0be,
      getD_map_range _ 16 k hk]

theorem sha1_transform_endian_witness :
    Bytes (List.range 64) ∧
    load_word true (List.range 64) 0 = 0x03020100 ∧
    blk0le (load_block true (List.range 64)) 0 = 0x00010203 ∧
    (sha1_transform true ⟨1, 2, 3, 4, 5, 808, 9, List.replicate 64 7⟩ (List.range 64)
        = sha1_transform false ⟨1, 2, 3, 4, 5, 808, 9, List.replicate 64 7⟩ (List.range 64) ∧
    (∀ k, k < 16 → blk0le (load_block true (List.range 64)) k
        = blk0be (load_block false (List.range 64)) k) ∧
    (∀ le, run_sched le 16 0 (load_block le (List.range 64)) = fips_words (List.range 64)) ∧
    (∀ b0 b1 b2 b3, b0 < 256 → b1 < 256 → b2 < 256 → b3 < 256 →
      (ror (b0 + b1 * 2 ^ 8 + b2 * 2 ^ 16 + b3 * 2 ^ 24) 8 &&& 0xFF00FF00)
          ||| (rol (b0 + b1 * 2 ^ 8 + b2 * 2 ^ 16 + b3 * 2 ^ 24) 8 &&& 0x00FF00FF)
        = b0 * 2 ^ 24 + b1 * 2 ^ 16 + b2 * 2 ^ 8 + b3)) :=
  ⟨by unfold Bytes; decide, by decide, by decide,
    sha1_transform_endian ⟨1, 2, 3, 4, 5, 808, 9, List.replicate 64 7⟩ (List.range 64)
      (by unfold Bytes; decide)⟩

/-- C16: for every host byte order, every context with a 64-byte buffer holding
`j = (count[0] >> 3) & 63` buffered bytes and every input of `len < 2^29` bytes,
`sha1_update` calls `sha1_transform` exactly `(j + len) / 64` times.  When `j + len < 64`
there is no call, `h` is unchanged and the buffer changes only in `buffer[j .. j+len)`, which
receives the input.  When `j + len >= 64` the calls are: one on the buffer filled up with the
first `64 - j` input bytes, then one on each following full 64-byte chunk of the input; the
remaining `(j + len) mod 64` input bytes are left at offset 0 of the buffer. -/
theorem sha1_update_transform_calls (le : Bool) (c : sha1_ctx) (data : List Nat)
    (hb : c.buffer.length = 64) (hlen : data.length < 2 ^ 29) :
    (sha1_update_log le c data).1 = sha1_update le c data ∧
    transforms (sha1_update_log le c data).2 = (c.j + data.length) / 64 ∧
    (sha1_update_log le c data).2 = update_calls c.j data.length ∧
    (c.j + data.length < 64 →
      (sha1_update le c data).hs = c.hs ∧
      (sha1_update le c data).buffer
        = c.buffer.take c.j ++ data ++ c.buffer.drop (c.j + data.length)) ∧
    (64 ≤ c.j + data.length →
      (sha1_update le c data).hs
        = hash_blocks le ((c.j + data.length) / 64 - 1)
            (compress le c.hs (c.buffer.take c.j ++ data.take (64 - c.j)))
            (data.drop (64 - c.j)) ∧
      (sha1_update le c data).buffer.take ((c.j + data.length) % 64)
        = data.drop (data.length - (c.j + data.length) % 64)) := by
  have hjlt := j_lt c
  refine ⟨update_log_fst le c data, transforms_update le c data (by omega),
    update_log_eq le c data (by omega), fun h => ?_, fun h => ?_⟩
  · obtain ⟨h1, h2⟩ := update_small le c data (by omega)
    rw [h1, memcpy, List.take_of_length_le (le_refl _)]
    exact ⟨h2, rfl⟩
  · obtain ⟨_, h2⟩ := update_big le c data (by omega) h
    have hq : (data.length - (64 - c.j)) / 64 = (c.j + data.length) / 64 - 1 := by omega
    rw [h2, hq, memcpy_fill _ _ _ hb hjlt]
    exact ⟨rfl, update_rest le c data hb (by omega) h⟩

theorem sha1_update_transform_calls_witness :
    zero_ctx.buffer.length = 64 ∧ (List.replicate 130 7).length < 2 ^ 29 ∧
    ((sha1_update_log true zero_ctx (List.replicate 130 7)).1
        = sha1_update true zero_ctx (List.replicate 130 7) ∧
    transforms (sha1_update_log true zero_ctx (List.replicate 130 7)).2
      = (zero_ctx.j + (List.replicate 130 7).length) / 64 ∧
    (sha1_update_log true zero_ctx (List.replicate 130 7)).2
      = update_calls zero_ctx.j (List.replicate 130 7).length ∧
    (zero_ctx.j + (List.replicate 130 7).length < 64 →
      (sha1_update true zero_ctx (List.replicate 130 7)).hs = zero_ctx.hs ∧
      (sha1_update true zero_ctx (List.replicate 130 7)).buffer
        = zero_ctx.buffer.take zero_ctx.j ++ List.replicate 130 7
            ++ zero_ctx.buffer.drop (zero_ctx.j + (List.replicate 130 7).length)) ∧
    (64 ≤ zero_ctx.j + (List.replicate 130 7).length →
      (sha1_update true zero_ctx (List.replicate 130 7)).hs
        = hash_blocks true ((zero_ctx.j + (List.replicate 130 7).length) / 64 - 1)
            (compress true zero_ctx.hs
              (zero_ctx.buffer.take zero_ctx.j ++ (List.replicate 130 7).take (64 - zero_ctx.j)))
            ((List.replicate 130 7).drop (64 - zero_ctx.j)) ∧
      (sha1_update true zero_ctx (List.replicate 130 7)).buffer.take
          ((zero_ctx.j + (List.replicate 130 7).length) % 64)
        = (List.replicate 130 7).drop
            ((List.replicate 130 7).length
              - (zero_ctx.j + (List.replicate 130 7).length) % 64))) :=
  ⟨rfl, by simp, sha1_update_transform_calls true zero_ctx _ rfl (by simp)⟩

/-- C17: for every context, whatever its `count`, the zero-padding loop of `sha1_final`
(one `sha1_update` with a zero byte per iteration while `(count[0] & 504) != 448`) makes
exactly `n = (120 - j) mod 64` iterations, where `j = (count[0] >> 3) & 63` on entry, which is
at most 63: the loop condition holds before each of them and fails after the last, where
`(count[0] >> 3) & 63 == 56`; with any bound of at least `n` iterations, such as the 64 that
`sha1_final` passes, the loop returns the context after these `n` iterations. -/
theorem sha1_final_pad_terminates (le : Bool) (c : sha1_ctx) :
    (120 - c.j) % 64 ≤ 63 ∧
    (∀ m, m < (120 - c.j) % 64 →
      ((fun c => sha1_update le c [0])^[m] c).count0 &&& 504 ≠ 448) ∧
    ((fun c => sha1_update le c [0])^[(120 - c.j) % 64] c).count0 &&& 504 = 448 ∧
    (((fun c => sha1_update le c [0])^[(120 - c.j) % 64] c).count0 >>> 3) &&& 63 = 56 ∧
    (∀ fuel, (120 - c.j) % 64 ≤ fuel →
      sha1_final_pad le fuel c = (fun c => sha1_update le c [0])^[(120 - c.j) % 64] c) ∧
    sha1_final_pad le 64 c = (fun c => sha1_update le c [0])^[(120 - c.j) % 64] c := by
  have hjlt := j_lt c
  have hj : ∀ d : sha1_ctx, (d.count0 >>> 3) &&& 63 = d.j := fun _ => rfl
  have h56 : ((fun c => sha1_update le c [0])^[(120 - c.j) % 64] c).j = 56 := by
    rw [pad_iterate_j]; omega
  refine ⟨by omega, fun m hm => ?_, ?_, by rw [hj, h56],
    fun fuel hf => final_pad_eq_iterate le fuel c hf,
    final_pad_eq_iterate le 64 c (by omega)⟩
  · rw [pad_cond, pad_iterate_j]
    omega
  · have := (pad_cond ((fun c => sha1_update le c [0])^[(120 - c.j) % 64] c)).not
    rw [not_not, not_not] at this
    exact this.2 h56

/-- C18: for every context, the `sha1_update` with the 8 bytes of `finalcount` inside
`sha1_final` calls `sha1_transform` exactly once and leaves no buffered byte; in all,
`sha1_final` calls `sha1_transform` exactly once when `j <= 55` bytes are buffered on entry
and exactly twice when `56 <= j <= 63`, for `j = (count[0] >> 3) & 63`. -/
theorem sha1_final_transform_calls (le : Bool) (c : sha1_ctx) :
    (sha1_final_log le c).1 = sha1_final le c ∧
    transforms (sha1_update_log le (sha1_final_pad le 64 (sha1_update le c [0x80]))
        (finalcount c)).2 = 1 ∧
    ((sha1_update le (sha1_final_pad le 64 (sha1_update le c [0x80]))
        (finalcount c)).count0 >>> 3) &&& 63 = 0 ∧
    c.j ≤ 63 ∧
    (c.j ≤ 55 → transforms (sha1_final_log le c).2 = 1) ∧
    (56 ≤ c.j → transforms (sha1_final_log le c).2 = 2) := by
  have hjlt := j_lt c
  refine ⟨final_log_fst le c, (final_last_update le c).1, (final_last_update le c).2, by omega,
    fun h => ?_, fun h => ?_⟩
  · rw [transforms_final, if_pos h]
  · rw [transforms_final, if_neg (by omega)]

/-- C19: for all words `w, x, y`, the function of rounds 40 to 59 in the code,
`((w | x) & y) | (w & x)` of macro `R3`, equals the function of the specification,
`(w AND x) OR (w AND y) OR (x AND y)`: as an identity, as the equality of `code_f` and
`fips_f` on these rounds, and in what `R3` adds to its last argument. -/
theorem R3_function_is_maj (w x y : Nat) :
    ((w ||| x) &&& y) ||| (w &&& x) = (w &&& x) ||| (w &&& y) ||| (x &&& y) ∧
    (∀ t, 40 ≤ t → t < 60 → code_f t w x y = ((w ||| x) &&& y) ||| (w &&& x) ∧
      fips_f t w x y = (w &&& x) ||| (w &&& y) ||| (x &&& y) ∧
      code_f t w x y = fips_f t w x y) ∧
    (∀ (s : Work) (i : Nat), s.b = w → s.c = x → s.d = y →
      (R3 .a .b .c .d .e i s).e
        = add32 s.e (add32 (add32 (add32 ((w &&& x) ||| (w &&& y) ||| (x &&& y))
            (blk s.block i)) 0x8F1BBCDC) (rol s.a 5))) := by
  refine ⟨maj_eq w x y, fun t h1 h2 => ?_, fun s i hb hc hd => ?_⟩
  · have e1 : code_f t w x y = ((w ||| x) &&& y) ||| (w &&& x) := by
      rw [code_f, if_neg (by omega), if_neg (by omega), if_pos h2]
    have e2 : fips_f t w x y = (w &&& x) ||| (w &&& y) ||| (x &&& y) := by
      rw [fips_f, if_neg (by omega), if_neg (by omega), if_pos h2]
    exact ⟨e1, e2, by rw [e1, e2, maj_eq]⟩
  · rw [← maj_eq, ← hb, ← hc, ← hd]
    rfl

/-- C20: for every context and every input of `len < 2^63` bytes, every call `sha1_update`
makes stays in bounds: each copy writes inside `buffer[0 .. 64)` and reads inside
`data[0 .. len)`, and each `sha1_transform` on the input reads 64 bytes inside
`data[0 .. len)`.  In the block-crossing branch `64 - j <= len`, and for the `i` the loop
ends with, `i <= len` and `0 + (len - i) <= 64`; in the other branch `j + len <= 64`. -/
theorem sha1_update_in_bounds (le : Bool) (c : sha1_ctx) (data : List Nat)
    (hlen : data.length < 2 ^ 63) :
    (sha1_update_log le c data).1 = sha1_update le c data ∧
    (∀ e ∈ (sha1_update_log le c data).2, e.in_bounds data.length) ∧
    (64 ≤ c.j + data.length →
      64 - c.j ≤ data.length ∧
      ∀ c' : sha1_ctx,
        (sha1_update_loop le data data.length data.length (64 - c.j) c').1 ≤ data.length ∧
        0 + (data.length
          - (sha1_update_loop le data data.length data.length (64 - c.j) c').1) ≤ 64) ∧
    (c.j + data.length < 64 → c.j + (data.length - 0) ≤ 64) := by
  have hjlt := j_lt c
  refine ⟨update_log_fst le c data, ?_, fun h => ⟨by omega, fun c' => ?_⟩, fun h => by omega⟩
  · rw [update_log_eq le c data hlen]
    exact in_bounds_update_calls c.j data.length hjlt
  · rw [update_loop_eq le data hlen _ _ c' (by omega) (by omega)]
    simp only
    omega

theorem sha1_update_in_bounds_witness :
    (List.replicate 130 7).length < 2 ^ 63 ∧
    ((sha1_update_log true zero_ctx (List.replicate 130 7)).1
        = sha1_update true zero_ctx (List.replicate 130 7) ∧
    (∀ e ∈ (sha1_update_log true zero_ctx (List.replicate 130 7)).2,
      e.in_bounds (List.replicate 130 7).length) ∧
    (64 ≤ zero_ctx.j + (List.replicate 130 7).length →
      64 - zero_ctx.j ≤ (List.replicate 130 7).length ∧
      ∀ c' : sha1_ctx,
        (sha1_update_loop true (List.replicate 130 7) (List.replicate 130 7).length
            (List.replicate 130 7).length (64 - zero_ctx.j) c').1
          ≤ (List.replicate 130 7).length ∧
        0 + ((List.replicate 130 7).length
          - (sha1_update_loop true (List.replicate 130 7) (List.replicate 130 7).length
              (List.replicate 130 7).length (64 - zero_ctx.j) c').1) ≤ 64) ∧
    (zero_ctx.j + (List.replicate 130 7).length < 64 →
      zero_ctx.j + ((List.replicate 130 7).length - 0) ≤ 64)) :=
  ⟨by simp, sha1_update_in_bounds true zero_ctx _ (by simp)⟩

end SHA1
